import Mathlib

/-!
Verification of the CodeDNA dependency-graph engine
(`backend/services/graphBuilder.js`: `buildGraph` plus the graph-analytics
service `computeGraphAnalytics` / `detectCycles` / `computeCentrality` /
`computeClusters` / `computeRisks`).

Shallow embedding conventions:
* JavaScript numbers on the analytics paths are modelled as exact numbers
  (`Int`/`Nat` for counters and scores, `ℚ` for PageRank / betweenness);
  the damping constant `0.85` is the exact rational `17/20`.
* JavaScript `Map` objects are modelled as functions `String → Option _`
  updated pointwise; `Map.get(k) || []` becomes `(m k).getD []`.
* Possibly-absent object fields (`node.data?.x`) are `Option` fields; the
  `x || default` idiom is `strOr` / `numOr` below, which treat `""`/`0` as
  falsy exactly as JavaScript does.
* Presentation-only node fields (`position`, `color`, edge `style`,
  `type`, `animated`, and the `edge-N` id counter) carry no information
  used by any algorithm and are omitted from the embedding.
* The Node stdlib functions `path.normalize` and `path.basename` are
  external collaborators, not repository code; they are passed in as
  opaque function parameters `norm` / `basename`.
-/

namespace CodeDNA

/-- JavaScript `v || d` for an optional string: `undefined` and `""` are falsy. -/
def strOr (v : Option String) (d : String) : String :=
  match v with
  | some s => if s = "" then d else s
  | none => d

/-- JavaScript `v || d` for an optional integer: `undefined` and `0` are falsy. -/
def numOr (v : Option Int) (d : Int) : Int :=
  match v with
  | some k => if k = 0 then d else k
  | none => d

/-- The `data` payload of a graph node, as constructed by `buildGraph`
(`label`, `path`, `language`, `loc`, `complexity`, `importCount`) and as read
back by the analytics (`node.data?.label/language/loc/complexity/directory`).
Fields are optional because the analytics accepts arbitrary node objects. -/
structure NData where
  label : Option String
  path : Option String
  language : Option String
  loc : Option Int
  complexity : Option Int
  importCount : Option Int
  directory : Option String
deriving Repr, DecidableEq

/-- A graph node: `id` plus optional `data` (the analytics reads `node.data?.x`). -/
structure Node where
  id : String
  data : Option NData
deriving Repr, DecidableEq

/-- A dependency edge (source file path → resolved target file path). -/
structure Edge where
  source : String
  target : String
deriving Repr, DecidableEq

/-- The graph handed from `buildGraph` to the analytics service. -/
structure Graph where
  nodes : List Node
  edges : List Edge
deriving Repr

/-! ## `buildGraph` (graphBuilder.js) -/

/-- One parsed import statement (`{ module, isRelative }`). -/
structure Imp where
  module : String
  isRelative : Bool
deriving Repr, DecidableEq

/-- One parsed file record as consumed by `buildGraph`. -/
structure PFile where
  path : String
  language : String
  loc : Int
  complexity : Int
  imports : List Imp
deriving Repr, DecidableEq

/-- `String.endsWith`, phrased on the character list so the kernel can
evaluate it. -/
def strEndsWith (p suf : String) : Bool :=
  decide (p.data.drop (p.data.length - suf.data.length) = suf.data)

/-- `String.dropRight`, phrased on the character list. -/
def strDropRight (p : String) (n : Nat) : String :=
  ⟨p.data.take (p.data.length - n)⟩

/-- `file.path.replace(/\.(js|jsx|ts|tsx|py)$/, '')`: drop a trailing
source extension (the regex anchors at the end, so at most one suffix
is removed). -/
def stripExt (p : String) : String :=
  if strEndsWith p ".jsx" then strDropRight p 4
  else if strEndsWith p ".tsx" then strDropRight p 4
  else if strEndsWith p ".js" then strDropRight p 3
  else if strEndsWith p ".ts" then strDropRight p 3
  else if strEndsWith p ".py" then strDropRight p 3
  else p

/-- Pointwise update of a string-keyed map (JS `Map.set`). -/
def mapSetF (m : String → Option PFile) (k : String) (v : PFile) : String → Option PFile :=
  fun x => if x = k then some v else m x

/-- The `fileMap`: every file under its path, and additionally under its
extension-stripped path when that key is not taken yet. -/
def fileMapOf (files : List PFile) : String → Option PFile :=
  files.foldl
    (fun m file =>
      let m1 := mapSetF m file.path file
      let noExt := stripExt file.path
      if (m1 noExt).isSome then m1 else mapSetF m1 noExt file)
    (fun _ => none)

/-- The fixed probe list `possiblePaths` for a relative import specifier. -/
def probes (t : String) : List String :=
  [t, t ++ ".js", t ++ ".jsx", t ++ ".ts", t ++ ".tsx",
   t ++ "/index.js", t ++ "/index.ts", t ++ "/index.jsx", t ++ "/index.tsx"]

/-- The resolution loop: walk `possiblePaths` in order, normalize each and
return the first `fileMap` hit (`break` on first match). `norm` stands for
Node's `path.normalize`. -/
def resolveTarget (norm : String → String) (fm : String → Option PFile) (t : String) :
    Option PFile :=
  (probes t).findSome? (fun p => fm (norm p))

/-- The raw (pre-dedup) edge list: one edge per relative import that
resolves; non-relative imports and unresolved imports contribute nothing. -/
def rawEdges (norm : String → String) (files : List PFile) : List Edge :=
  files.flatMap (fun f =>
    f.imports.filterMap (fun imp =>
      if imp.isRelative then
        (resolveTarget norm (fileMapOf files) imp.module).map
          (fun tf => Edge.mk f.path tf.path)
      else none))

/-- The dedup key `` `${edge.source}->${edge.target}` ``. -/
def edgeKey (e : Edge) : String := e.source ++ "->" ++ e.target

/-- The dedup pass: keep an edge iff its key was not seen before. -/
def dedupEdgesAux (seen : List String) : List Edge → List Edge
  | [] => []
  | e :: es =>
    if edgeKey e ∈ seen then dedupEdgesAux seen es
    else e :: dedupEdgesAux (edgeKey e :: seen) es

/-- `uniqueEdges` of `buildGraph`. -/
def dedupEdges (es : List Edge) : List Edge := dedupEdgesAux [] es

/-- The literal key set of the `data` object constructed for each node in
`buildGraph` (graphBuilder.js lines 39–47): exactly these fields are written. -/
def buildGraphNodeDataKeys : List String :=
  ["label", "path", "language", "loc", "complexity", "color", "importCount"]

/-- `buildGraph`: one node per file (id = path), edges from resolved
relative imports, deduplicated. `norm` is `path.normalize`, `basename`
is `path.basename` (both Node stdlib). -/
def buildGraph (norm basename : String → String) (files : List PFile) : Graph :=
  { nodes := files.map (fun f =>
      { id := f.path
        data := some
          { label := some (basename f.path)
            path := some f.path
            language := some f.language
            loc := some f.loc
            complexity := some f.complexity
            importCount := some ((f.imports.filter (·.isRelative)).length : Int)
            directory := none } })
    edges := dedupEdges (rawEdges norm files) }

/-! ## Adjacency lists (graph analytics service) -/

/-- The node id list of a graph. -/
def nodeIds (g : Graph) : List String := g.nodes.map (·.id)

/-- Pointwise update of a string-keyed map of lists. -/
def mapSetL (m : String → Option (List String)) (k : String) (v : List String) :
    String → Option (List String) :=
  fun x => if x = k then some v else m x

/-- `buildAdjacencyList`: initialize every node id to `[]`, then for each
edge whose source is a known key push the target. -/
def buildAdjacencyList (g : Graph) : String → Option (List String) :=
  g.edges.foldl
    (fun m e =>
      match m e.source with
      | some l => mapSetL m e.source (l ++ [e.target])
      | none => m)
    (fun v => if v ∈ nodeIds g then some [] else none)

/-- `buildReverseAdjacencyList`: for each edge whose target is a known key
push the source. -/
def buildReverseAdjacencyList (g : Graph) : String → Option (List String) :=
  g.edges.foldl
    (fun m e =>
      match m e.target with
      | some l => mapSetL m e.target (l ++ [e.source])
      | none => m)
    (fun v => if v ∈ nodeIds g then some [] else none)

/-- `adjacency.get(v) || []`. -/
def adjL (g : Graph) (v : String) : List String := (buildAdjacencyList g v).getD []

/-- `reverseAdj.get(v) || []`. -/
def revL (g : Graph) (v : String) : List String := (buildReverseAdjacencyList g v).getD []

/-- Out-degree as the analytics reads it: `(adjacency.get(v) || []).length`. -/
def outDeg (g : Graph) (v : String) : Nat := (adjL g v).length

/-- In-degree as the analytics reads it: `(reverseAdj.get(v) || []).length`. -/
def inDeg (g : Graph) (v : String) : Nat := (revL g v).length

/-! ### Closed forms of the adjacency maps -/

theorem buildAdjacency_char (g : Graph) (v : String) :
    buildAdjacencyList g v =
      if v ∈ nodeIds g
      then some ((g.edges.filter (fun e => e.source = v)).map (·.target))
      else none := by
  have main : ∀ (es : List Edge) (m : String → Option (List String)),
      (es.foldl
        (fun m e =>
          match m e.source with
          | some l => mapSetL m e.source (l ++ [e.target])
          | none => m) m) v =
      match m v with
      | some l => some (l ++ (es.filter (fun e => e.source = v)).map (·.target))
      | none => none := by
    intro es
    induction es with
    | nil => intro m; cases h : m v <;> simp [h]
    | cons e es ih =>
      intro m
      simp only [List.foldl_cons, List.filter_cons]
      by_cases hs : e.source = v
      · subst hs
        cases hm : m e.source with
        | none =>
          simp only [hm]
          rw [ih]
          simp [hm]
        | some l =>
          simp only [hm]
          rw [ih]
          simp [mapSetL, hm]
      · cases hm : m e.source with
        | none =>
          simp only [hm]
          rw [ih]
          have : (e.source = v) = False := by simp [hs]
          simp [this, decide_eq_true_eq, hs]
        | some l =>
          simp only [hm]
          rw [ih]
          simp only [mapSetL]
          have hv : ¬ (v = e.source) := fun h => hs h.symm
          simp [hv, hs]
  unfold buildAdjacencyList
  rw [main]
  by_cases hv : v ∈ nodeIds g <;> simp [hv]

theorem buildReverseAdjacency_char (g : Graph) (v : String) :
    buildReverseAdjacencyList g v =
      if v ∈ nodeIds g
      then some ((g.edges.filter (fun e => e.target = v)).map (·.source))
      else none := by
  have main : ∀ (es : List Edge) (m : String → Option (List String)),
      (es.foldl
        (fun m e =>
          match m e.target with
          | some l => mapSetL m e.target (l ++ [e.source])
          | none => m) m) v =
      match m v with
      | some l => some (l ++ (es.filter (fun e => e.target = v)).map (·.source))
      | none => none := by
    intro es
    induction es with
    | nil => intro m; cases h : m v <;> simp [h]
    | cons e es ih =>
      intro m
      simp only [List.foldl_cons, List.filter_cons]
      by_cases hs : e.target = v
      · subst hs
        cases hm : m e.target with
        | none =>
          simp only [hm]
          rw [ih]
          simp [hm]
        | some l =>
          simp only [hm]
          rw [ih]
          simp [mapSetL, hm]
      · cases hm : m e.target with
        | none =>
          simp only [hm]
          rw [ih]
          have : (e.target = v) = False := by simp [hs]
          simp [this, decide_eq_true_eq, hs]
        | some l =>
          simp only [hm]
          rw [ih]
          simp only [mapSetL]
          have hv : ¬ (v = e.target) := fun h => hs h.symm
          simp [hv, hs]
  unfold buildReverseAdjacencyList
  rw [main]
  by_cases hv : v ∈ nodeIds g <;> simp [hv]

theorem adjL_eq (g : Graph) (v : String) :
    adjL g v =
      if v ∈ nodeIds g
      then (g.edges.filter (fun e => e.source = v)).map (·.target)
      else [] := by
  unfold adjL
  rw [buildAdjacency_char]
  by_cases hv : v ∈ nodeIds g <;> simp [hv]

theorem revL_eq (g : Graph) (v : String) :
    revL g v =
      if v ∈ nodeIds g
      then (g.edges.filter (fun e => e.target = v)).map (·.source)
      else [] := by
  unfold revL
  rw [buildReverseAdjacency_char]
  by_cases hv : v ∈ nodeIds g <;> simp [hv]

end CodeDNA

namespace CodeDNA

/-! ## PageRank (`computePageRank`) -/

/-- The damping factor `0.85`, exact. -/
def damping : ℚ := 17 / 20

/-- The power iteration: `prIter g k v` is the rank of `v` after `k`
synchronous iterations of
`PR(v) = (1-d)/n + d * Σ over incoming u of PR(u)/outDegree(u)`,
where an incoming `u` with `outDegree(u) = 0` is skipped, starting from
the uniform value `1/n`. -/
def prIter (g : Graph) : Nat → String → ℚ
  | 0, _ => 1 / (g.nodes.length : ℚ)
  | k + 1, v =>
    (1 - damping) / (g.nodes.length : ℚ)
      + damping *
        ((revL g v).map (fun u =>
          if 0 < outDeg g u then prIter g k u / (outDeg g u : ℚ) else 0)).sum

/-- The pageRank finally stored on a node's centrality record: the fixed
20-iteration value; when `n = 0` the whole computation is skipped and the
record keeps its initial `0`. -/
def pageRankOf (g : Graph) (v : String) : ℚ :=
  if g.nodes.length = 0 then 0 else prIter g 20 v

/-! ## Betweenness (`computeBetweenness`) -/

/-- BFS working state: FIFO queue, visited set, and the single recorded
path per discovered node (insertion-ordered). -/
structure BfsState where
  queue : List String
  visited : List String
  paths : List (String × List String)
deriving Repr

/-- `paths.get(v)` (total lookup; only ever used on keys that are present). -/
def lookupPath (ps : List (String × List String)) (v : String) : List String :=
  ((ps.find? (fun p => p.1 == v)).map (·.2)).getD []

/-- One pass over `adjacency.get(current) || []`: unvisited neighbors are
marked visited, enqueued, and get the path `paths.get(current) ++ [nbr]`. -/
def bfsExpand (g : Graph) (current : String) (st : BfsState) : BfsState :=
  (adjL g current).foldl
    (fun s nbr =>
      if nbr ∈ s.visited then s
      else
        { queue := s.queue ++ [nbr]
          visited := s.visited ++ [nbr]
          paths := s.paths ++ [(nbr, lookupPath s.paths current ++ [nbr])] })
    st

/-- The `while (queue.length > 0)` loop, fuelled. Every enqueue marks a
fresh string visited, so at most `1 + edges` pops ever happen and the fuel
`nodes + edges + 1` used below is never exhausted. -/
def bfsLoop (g : Graph) : Nat → BfsState → List (String × List String)
  | 0, st => st.paths
  | fuel + 1, st =>
    match st.queue with
    | [] => st.paths
    | current :: rest =>
      bfsLoop g fuel (bfsExpand g current { queue := rest, visited := st.visited, paths := st.paths })

/-- BFS from one source: the recorded path map. -/
def bfsFrom (g : Graph) (source : String) : List (String × List String) :=
  bfsLoop g (g.nodes.length + g.edges.length + 1)
    { queue := [source], visited := [source], paths := [(source, [source])] }

/-- The interior nodes contributed by one source's BFS: for every recorded
path to a destination other than the source with more than 2 nodes, all
nodes except the first and the last. -/
def interiorsOf (source : String) (ps : List (String × List String)) : List String :=
  (ps.filter (fun p => p.1 != source && decide (2 < p.2.length))).flatMap
    (fun p => (p.2.drop 1).dropLast)

/-- The raw betweenness counter of `v`: over every node as BFS source, how
often `v` occurs as an interior node of a recorded path (only entries of
the centrality table — node ids — are ever incremented). -/
def counterOf (g : Graph) (v : String) : Nat :=
  ((nodeIds g).map (fun s => (interiorsOf s (bfsFrom g s)).count v)).sum

/-- `Math.max(...counters, 1)`: the normalization divisor. -/
def maxBetweenness (g : Graph) : Nat :=
  ((nodeIds g).map (counterOf g)).foldr max 1

/-- The normalized betweenness stored on a node's centrality record. -/
def betweennessOf (g : Graph) (v : String) : ℚ :=
  (counterOf g v : ℚ) / (maxBetweenness g : ℚ)

/-! ## Centrality records (`computeCentrality`) -/

/-- One centrality record as stored in `centrality.byNode`. -/
structure CentRec where
  nodeId : String
  label : String
  inDegree : Nat
  outDegree : Nat
  totalDegree : Nat
  betweenness : ℚ
  pageRank : ℚ
deriving Repr, DecidableEq

/-- The record `computeCentrality` produces for one node. -/
def centRecOf (g : Graph) (nd : Node) : CentRec :=
  { nodeId := nd.id
    label := strOr (nd.data.bind (·.label)) nd.id
    inDegree := inDeg g nd.id
    outDegree := outDeg g nd.id
    totalDegree := inDeg g nd.id + outDeg g nd.id
    betweenness := betweennessOf g nd.id
    pageRank := pageRankOf g nd.id }

/-- Stable insertion (descending by `key`): a new element goes after all
elements with a `≥` key, as JavaScript's stable `sort` does. -/
def insertDescBy (key : α → ℚ) (x : α) : List α → List α
  | [] => [x]
  | y :: ys => if key x ≤ key y then y :: insertDescBy key x ys else x :: y :: ys

/-- Stable sort, descending by `key` (models `arr.sort((a,b) => key(b) - key(a))`). -/
def sortDescBy (key : α → ℚ) (l : List α) : List α :=
  l.foldl (fun acc x => insertDescBy key x acc) []

/-- The full centrality result: per-node records plus the three top-10
rankings. -/
structure Centrality where
  byNode : List CentRec
  topByDegree : List CentRec
  topByPageRank : List CentRec
  topByBetweenness : List CentRec
deriving Repr

/-- `computeCentrality`: build every node's record, then the three
descending rankings truncated to 10. -/
def computeCentrality (g : Graph) : Centrality :=
  let recs := g.nodes.map (centRecOf g)
  { byNode := recs
    topByDegree := (sortDescBy (fun r => (r.totalDegree : ℚ)) recs).take 10
    topByPageRank := (sortDescBy (fun r => r.pageRank) recs).take 10
    topByBetweenness := (sortDescBy (fun r => r.betweenness) recs).take 10 }

/-! ## Clusters (`computeClusters`) -/

/-- One member entry of a cluster (`{ id, label }`, label possibly absent). -/
structure ClusterEntry where
  id : String
  label : Option String
deriving Repr, DecidableEq

/-- Append an entry under `k`, creating the group at the end on first use
(JS object insertion order). -/
def addEntry (m : List (String × List ClusterEntry)) (k : String) (e : ClusterEntry) :
    List (String × List ClusterEntry) :=
  if m.any (fun p => p.1 == k) then
    m.map (fun p => if p.1 == k then (p.1, p.2 ++ [e]) else p)
  else m ++ [(k, [e])]

/-- The cluster report. -/
structure Clusters where
  byLanguage : List (String × List ClusterEntry)
  byDirectory : List (String × List ClusterEntry)
  languageCounts : List (String × Nat)
  directoryCounts : List (String × Nat)
deriving Repr

/-- The language key of a node: `node.data?.language || 'unknown'`. -/
def langOf (nd : Node) : String := strOr (nd.data.bind (·.language)) "unknown"

/-- The directory key of a node: `node.data?.directory || 'root'`. -/
def dirOf (nd : Node) : String := strOr (nd.data.bind (·.directory)) "root"

/-- `computeClusters`: group nodes by language and by directory, and derive
the per-key counts. -/
def computeClusters (nodes : List Node) : Clusters :=
  let byLang := nodes.foldl
    (fun m nd => addEntry m (langOf nd) ⟨nd.id, nd.data.bind (·.label)⟩) []
  let byDir := nodes.foldl
    (fun m nd => addEntry m (dirOf nd) ⟨nd.id, nd.data.bind (·.label)⟩) []
  { byLanguage := byLang
    byDirectory := byDir
    languageCounts := byLang.map (fun p => (p.1, p.2.length))
    directoryCounts := byDir.map (fun p => (p.1, p.2.length)) }

end CodeDNA

namespace CodeDNA

/-! ## Cycle detection (`detectCycles`, Tarjan's SCC) -/

/-- Pointwise update of a string-keyed map of numbers. -/
def mapSetN (m : String → Option Nat) (k : String) (v : Nat) : String → Option Nat :=
  fun x => if x = k then some v else m x

/-- Pointwise update of a string-keyed boolean map (`onStack`); absent keys
read as `false`, matching the falsiness of `undefined`. -/
def mapSetB (m : String → Bool) (k : String) (v : Bool) : String → Bool :=
  fun x => if x = k then v else m x

/-- The mutable state of Tarjan's traversal: discovery `index`, `lowlink`,
`onStack` flags, the explicit node stack (head = top), the collected
components, and the next discovery index. -/
structure TarjanState where
  indexM : String → Option Nat
  lowlinkM : String → Option Nat
  onStackM : String → Bool
  stack : List String
  sccs : List (List String)
  counter : Nat

/-- The `do { w = stack.pop(); ... } while (w !== nodeId)` loop: split the
stack into the popped segment (in pop order, ending with `v`) and the rest. -/
def popUntil (v : String) : List String → List String × List String
  | [] => ([], [])
  | w :: ws =>
    if w = v then ([w], ws)
    else
      let p := popUntil v ws
      (w :: p.1, p.2)

/-- The entry bookkeeping of `strongConnect(nodeId)`: assign discovery
index and lowlink, advance the counter, push on the stack, mark on-stack. -/
def pushState (v : String) (st : TarjanState) : TarjanState :=
  { indexM := mapSetN st.indexM v st.counter
    lowlinkM := mapSetN st.lowlinkM v st.counter
    onStackM := mapSetB st.onStackM v true
    stack := v :: st.stack
    sccs := st.sccs
    counter := st.counter + 1 }

/-- The root pop of `strongConnect`: pop the stack down to `v`, clear the
on-stack marks, and record the component when it has more than one member. -/
def popComponent (v : String) (st : TarjanState) : TarjanState :=
  let p := popUntil v st.stack
  { indexM := st.indexM
    lowlinkM := st.lowlinkM
    onStackM := p.1.foldl (fun m w => mapSetB m w false) st.onStackM
    stack := p.2
    sccs := if 1 < p.1.length then st.sccs ++ [p.1] else st.sccs
    counter := st.counter }

/-- One iteration of the `for (const neighbor of neighbors)` loop:
an unvisited neighbor is explored recursively (`recur` is `strongConnect`
at the next recursion depth) and merges its lowlink; a visited neighbor
still on the stack merges its index; a finalized neighbor is skipped. -/
def neighborStep (recur : String → TarjanState → TarjanState) (v w : String)
    (st : TarjanState) : TarjanState :=
  if (st.indexM w).isNone then
    let s := recur w st
    { s with
        lowlinkM := mapSetN s.lowlinkM v (min ((s.lowlinkM v).getD 0) ((s.lowlinkM w).getD 0)) }
  else if st.onStackM w then
    { st with
        lowlinkM := mapSetN st.lowlinkM v (min ((st.lowlinkM v).getD 0) ((st.indexM w).getD 0)) }
  else st

/-- The neighbor loop of `strongConnect`, one `neighborStep` per neighbor
in adjacency-list order. -/
def visitNeighbors (recur : String → TarjanState → TarjanState) (v : String) :
    List String → TarjanState → TarjanState
  | [], st => st
  | w :: ws, st => visitNeighbors recur v ws (neighborStep recur v w st)

/-- `strongConnect(nodeId)`: assign index/lowlink, push on the stack, visit
all neighbors, and if the node roots a component pop it off; components
with more than one member are recorded. The fuel only bounds the recursion
depth; each nested call targets a node without an index and immediately
indexes it, so depth never exceeds the number of distinct strings visited
and the fuel passed by `detectCycles` is never exhausted. -/
def strongConnect (adjacency : String → List String) : Nat → String → TarjanState → TarjanState
  | 0, _, st => st
  | fuel + 1, v, st =>
    let st2 := visitNeighbors (strongConnect adjacency fuel) v (adjacency v) (pushState v st)
    if (st2.lowlinkM v).getD 0 = (st2.indexM v).getD 0 then popComponent v st2 else st2

/-- The initial Tarjan state: nothing visited. -/
def tarjanInit : TarjanState :=
  { indexM := fun _ => none
    lowlinkM := fun _ => none
    onStackM := fun _ => false
    stack := []
    sccs := []
    counter := 0 }

/-- Run Tarjan from every not-yet-indexed node, in input node order. -/
def tarjanSccs (g : Graph) : List (List String) :=
  (g.nodes.foldl
    (fun st nd =>
      if (st.indexM nd.id).isNone
      then strongConnect (adjL g) (g.nodes.length + g.edges.length + 1) nd.id st
      else st)
    tarjanInit).sccs

/-- One reported cycle. -/
structure Cycle where
  id : String
  nodes : List String
  nodeLabels : List String
  size : Nat
  severity : String
deriving Repr, DecidableEq

/-- The display label of a member id: `nodes.find(...)?.data?.label || id`. -/
def cycleLabel (nodes : List Node) (i : String) : String :=
  strOr ((nodes.find? (fun n => n.id == i)).bind (·.data) |>.bind (·.label)) i

/-- `detectCycles`: Tarjan's SCCs (only those with more than one member were
kept), formatted with ids `cycle-1`, `cycle-2`, …, member labels, size and
size-based severity. -/
def detectCycles (g : Graph) : List Cycle :=
  (tarjanSccs g).enum.map (fun p =>
    { id := "cycle-" ++ toString (p.1 + 1)
      nodes := p.2
      nodeLabels := p.2.map (cycleLabel g.nodes)
      size := p.2.length
      severity :=
        if 3 < p.2.length then "high"
        else if 2 < p.2.length then "medium" else "low" })

/-! ## Risk scoring (`computeRisks`) -/

/-- One risk record. -/
structure RiskRec where
  nodeId : String
  label : String
  riskScore : Nat
  riskLevel : String
  riskFactors : List String
  complexity : Int
  loc : Int
  inDegree : Option Nat
  outDegree : Option Nat
  inCycle : Bool
deriving Repr, DecidableEq

/-- Rule 1: `complexity > 20` → +30, else `complexity > 10` → +15. -/
def ruleComplexity (complexity : Int) (r : Nat × List String) : Nat × List String :=
  if 20 < complexity then (r.1 + 30, r.2 ++ ["High complexity"])
  else if 10 < complexity then (r.1 + 15, r.2 ++ ["Moderate complexity"])
  else r

/-- Rule 2: `cent.inDegree > 5` → +25, else `> 3` → +10 (false on the empty
fallback object `{}`, whose fields read as `undefined`). -/
def ruleInDegree (cent : Option CentRec) (r : Nat × List String) : Nat × List String :=
  match cent with
  | some c =>
    if 5 < c.inDegree then (r.1 + 25, r.2 ++ ["High coupling (many dependents)"])
    else if 3 < c.inDegree then (r.1 + 10, r.2 ++ ["Moderate coupling"])
    else r
  | none => r

/-- Rule 3: `cent.outDegree > 8` → +20, else `> 5` → +10. -/
def ruleOutDegree (cent : Option CentRec) (r : Nat × List String) : Nat × List String :=
  match cent with
  | some c =>
    if 8 < c.outDegree then (r.1 + 20, r.2 ++ ["Too many dependencies"])
    else if 5 < c.outDegree then (r.1 + 10, r.2 ++ ["Many dependencies"])
    else r
  | none => r

/-- Rule 4: membership in any reported cycle → +35. -/
def ruleCycle (inCycle : Bool) (r : Nat × List String) : Nat × List String :=
  if inCycle then (r.1 + 35, r.2 ++ ["Part of circular dependency"]) else r

/-- Rule 5: `loc > 300 && cent.totalDegree > 5` → +25. -/
def ruleGod (loc : Int) (cent : Option CentRec) (r : Nat × List String) : Nat × List String :=
  match cent with
  | some c =>
    if 300 < loc ∧ 5 < c.totalDegree then (r.1 + 25, r.2 ++ ["God module (large + central)"])
    else r
  | none => r

/-- Rule 6: `cent.betweenness > 0.5` → +15. -/
def ruleBetweenness (cent : Option CentRec) (r : Nat × List String) : Nat × List String :=
  match cent with
  | some c =>
    if 1 / 2 < c.betweenness then (r.1 + 15, r.2 ++ ["Refactoring bottleneck"])
    else r
  | none => r

/-- The additive risk accumulation for one node: the six `if` blocks of
`computeRisks` applied in source order to the initial `(0, [])`; `cent` is
`centrality.byNode[id]`, absent when the id has no record. -/
def riskEval (complexity loc : Int) (cent : Option CentRec) (inCycle : Bool) :
    Nat × List String :=
  ruleBetweenness cent
    (ruleGod loc cent
      (ruleCycle inCycle
        (ruleOutDegree cent
          (ruleInDegree cent
            (ruleComplexity complexity (0, []))))))

/-- `riskScore >= 50 ? 'high' : riskScore >= 25 ? 'medium' : 'low'`. -/
def riskLevelOf (s : Nat) : String :=
  if 50 ≤ s then "high" else if 25 ≤ s then "medium" else "low"

/-- `computeRisks`: score every node, keep only strictly positive scores,
sort descending by score. -/
def computeRisks (nodes : List Node) (byNode : String → Option CentRec)
    (cycles : List Cycle) : List RiskRec :=
  let cycleNodes : List String := cycles.flatMap (·.nodes)
  let base := nodes.filterMap (fun nd =>
    let complexity := numOr (nd.data.bind (·.complexity)) 0
    let loc := numOr (nd.data.bind (·.loc)) 0
    let cent := byNode nd.id
    let inCycle : Bool := decide (nd.id ∈ cycleNodes)
    let r := riskEval complexity loc cent inCycle
    if 0 < r.1 then
      some
        { nodeId := nd.id
          label := strOr (nd.data.bind (·.label)) nd.id
          riskScore := r.1
          riskLevel := riskLevelOf r.1
          riskFactors := r.2
          complexity := complexity
          loc := loc
          inDegree := cent.map (·.inDegree)
          outDegree := cent.map (·.outDegree)
          inCycle := inCycle }
    else none)
  sortDescBy (fun r => (r.riskScore : ℚ)) base

/-! ## `computeGraphAnalytics` -/

/-- The summary block. -/
structure Summary where
  totalCycles : Nat
  highRiskCount : Nat
  mediumRiskCount : Nat
  clusterCount : Nat
deriving Repr, DecidableEq

/-- The full analytics result. -/
structure Analytics where
  cycles : List Cycle
  centrality : Centrality
  clusters : Clusters
  risks : List RiskRec
  summary : Summary
deriving Repr

/-- `centrality.byNode[id]` as a lookup (node ids are unique, §3 of the
data model, so first match is the record). -/
def byNodeLookup (c : Centrality) (v : String) : Option CentRec :=
  c.byNode.find? (fun r => r.nodeId == v)

/-- `computeGraphAnalytics`: run all analytics and assemble the summary. -/
def computeGraphAnalytics (g : Graph) : Analytics :=
  let cycles := detectCycles g
  let centrality := computeCentrality g
  let clusters := computeClusters g.nodes
  let risks := computeRisks g.nodes (byNodeLookup centrality) cycles
  { cycles := cycles
    centrality := centrality
    clusters := clusters
    risks := risks
    summary :=
      { totalCycles := cycles.length
        highRiskCount := (risks.filter (fun r => r.riskLevel == "high")).length
        mediumRiskCount := (risks.filter (fun r => r.riskLevel == "medium")).length
        clusterCount := clusters.byLanguage.length } }

end CodeDNA

namespace CodeDNA

/-! ## Generic list lemmas (sums, sorting, dedup) -/

theorem sum_map_add_q (l : List α) (f g : α → ℚ) :
    (l.map (fun x => f x + g x)).sum = (l.map f).sum + (l.map g).sum := by
  induction l with
  | nil => simp
  | cons x xs ih => simp only [List.map_cons, List.sum_cons, ih]; ring

theorem sum_map_mul_left_q (l : List α) (c : ℚ) (f : α → ℚ) :
    (l.map (fun x => c * f x)).sum = c * (l.map f).sum := by
  induction l with
  | nil => simp
  | cons x xs ih => simp only [List.map_cons, List.sum_cons, ih]; ring

theorem sum_map_const_q (l : List α) (c : ℚ) :
    (l.map (fun _ => c)).sum = (l.length : ℚ) * c := by
  induction l with
  | nil => simp
  | cons x xs ih =>
    simp only [List.map_cons, List.sum_cons, ih, List.length_cons]
    push_cast
    ring

theorem mem_insertDescBy (key : α → ℚ) (x z : α) (l : List α) :
    z ∈ insertDescBy key x l ↔ z = x ∨ z ∈ l := by
  induction l with
  | nil => simp [insertDescBy]
  | cons y ys ih =>
    by_cases h : key x ≤ key y
    · simp only [insertDescBy, if_pos h, List.mem_cons, ih]
      tauto
    · simp only [insertDescBy, if_neg h, List.mem_cons]

theorem sorted_insertDescBy (key : α → ℚ) (x : α) (l : List α)
    (h : l.Sorted (fun a b => key b ≤ key a)) :
    (insertDescBy key x l).Sorted (fun a b => key b ≤ key a) := by
  induction l with
  | nil => simp [insertDescBy]
  | cons y ys ih =>
    rw [List.sorted_cons] at h
    by_cases hx : key x ≤ key y
    · rw [insertDescBy, if_pos hx, List.sorted_cons]
      refine ⟨?_, ih h.2⟩
      intro z hz
      rcases (mem_insertDescBy key x z ys).1 hz with rfl | hz
      · exact hx
      · exact h.1 z hz
    · rw [insertDescBy, if_neg hx, List.sorted_cons]
      refine ⟨?_, List.sorted_cons.2 h⟩
      intro z hz
      rcases List.mem_cons.1 hz with rfl | hz
      · exact le_of_lt (lt_of_not_le hx)
      · exact le_trans (h.1 z hz) (le_of_lt (lt_of_not_le hx))

theorem perm_insertDescBy (key : α → ℚ) (x : α) (l : List α) :
    (insertDescBy key x l).Perm (x :: l) := by
  induction l with
  | nil => simp [insertDescBy]
  | cons y ys ih =>
    by_cases h : key x ≤ key y
    · rw [insertDescBy, if_pos h]
      exact (ih.cons y).trans (List.Perm.swap x y ys)
    · rw [insertDescBy, if_neg h]

theorem sorted_sortDescBy (key : α → ℚ) (l : List α) :
    (sortDescBy key l).Sorted (fun a b => key b ≤ key a) := by
  have main : ∀ (l acc : List α), acc.Sorted (fun a b => key b ≤ key a) →
      (l.foldl (fun acc x => insertDescBy key x acc) acc).Sorted
        (fun a b => key b ≤ key a) := by
    intro l
    induction l with
    | nil => intro acc h; exact h
    | cons x xs ih =>
      intro acc h
      exact ih _ (sorted_insertDescBy key x acc h)
  exact main l [] (by simp)

theorem perm_sortDescBy (key : α → ℚ) (l : List α) : (sortDescBy key l).Perm l := by
  have main : ∀ (l acc : List α),
      (l.foldl (fun acc x => insertDescBy key x acc) acc).Perm (acc ++ l) := by
    intro l
    induction l with
    | nil => intro acc; simp
    | cons x xs ih =>
      intro acc
      refine (ih (insertDescBy key x acc)).trans ?_
      have h1 : (insertDescBy key x acc) ++ xs |>.Perm ((x :: acc) ++ xs) :=
        (perm_insertDescBy key x acc).append_right xs
      refine h1.trans ?_
      simpa using List.perm_middle.symm
  simpa using main l []

theorem mem_sortDescBy (key : α → ℚ) (l : List α) (x : α) :
    x ∈ sortDescBy key l ↔ x ∈ l :=
  (perm_sortDescBy key l).mem_iff

/-! ## C1: risk scoring -/

/-- JavaScript `v > k` where `v` may be `undefined` (then false). -/
def jsGtN (v : Option Nat) (k : Nat) : Bool :=
  match v with
  | some n => k < n
  | none => false

/-- JavaScript `v > q` for a possibly-absent rational field. -/
def jsGtQ (v : Option ℚ) (q : ℚ) : Bool :=
  match v with
  | some x => q < x
  | none => false

/-- The risk score of one node as `computeRisks` computes it. -/
def nodeRiskScore (byNode : String → Option CentRec) (cycles : List Cycle) (nd : Node) : Nat :=
  (riskEval (numOr (nd.data.bind (·.complexity)) 0) (numOr (nd.data.bind (·.loc)) 0)
    (byNode nd.id) (decide (nd.id ∈ cycles.flatMap (·.nodes)))).1

end CodeDNA

namespace CodeDNA

theorem fst_ruleComplexity (c : Int) (r : Nat × List String) :
    (ruleComplexity c r).1 = r.1 + (if 20 < c then 30 else if 10 < c then 15 else 0) := by
  unfold ruleComplexity; split_ifs <;> simp

theorem fst_ruleInDegree (cent : Option CentRec) (r : Nat × List String) :
    (ruleInDegree cent r).1 = r.1 +
      (if jsGtN (cent.map (·.inDegree)) 5 then 25
       else if jsGtN (cent.map (·.inDegree)) 3 then 10 else 0) := by
  rcases cent with _ | c
  · simp [ruleInDegree, jsGtN]
  · unfold ruleInDegree
    by_cases h1 : 5 < c.inDegree <;> by_cases h2 : 3 < c.inDegree <;>
      simp [jsGtN, h1, h2]

theorem fst_ruleOutDegree (cent : Option CentRec) (r : Nat × List String) :
    (ruleOutDegree cent r).1 = r.1 +
      (if jsGtN (cent.map (·.outDegree)) 8 then 20
       else if jsGtN (cent.map (·.outDegree)) 5 then 10 else 0) := by
  rcases cent with _ | c
  · simp [ruleOutDegree, jsGtN]
  · unfold ruleOutDegree
    by_cases h1 : 8 < c.outDegree <;> by_cases h2 : 5 < c.outDegree <;>
      simp [jsGtN, h1, h2]

theorem fst_ruleCycle (b : Bool) (r : Nat × List String) :
    (ruleCycle b r).1 = r.1 + (if b then 35 else 0) := by
  unfold ruleCycle; rcases b <;> simp

theorem fst_ruleGod (l : Int) (cent : Option CentRec) (r : Nat × List String) :
    (ruleGod l cent r).1 = r.1 +
      (if (decide (300 < l) && jsGtN (cent.map (·.totalDegree)) 5) then 25 else 0) := by
  rcases cent with _ | c
  · simp [ruleGod, jsGtN]
  · unfold ruleGod
    by_cases h1 : 300 < l <;> by_cases h2 : 5 < c.totalDegree <;>
      simp [jsGtN, h1, h2]

theorem fst_ruleBetweenness (cent : Option CentRec) (r : Nat × List String) :
    (ruleBetweenness cent r).1 = r.1 +
      (if jsGtQ (cent.map (·.betweenness)) (1 / 2) then 15 else 0) := by
  rcases cent with _ | c
  · simp [ruleBetweenness, jsGtQ]
  · unfold ruleBetweenness
    simp only [jsGtQ, Option.map_some', decide_eq_true_eq]
    split_ifs with h <;> simp

/-- The risk score is the sum of the six independent rule contributions. -/
theorem riskEval_score_formula (c l : Int) (cent : Option CentRec) (b : Bool) :
    (riskEval c l cent b).1 =
      (if 20 < c then 30 else if 10 < c then 15 else 0)
      + (if jsGtN (cent.map (·.inDegree)) 5 then 25
         else if jsGtN (cent.map (·.inDegree)) 3 then 10 else 0)
      + (if jsGtN (cent.map (·.outDegree)) 8 then 20
         else if jsGtN (cent.map (·.outDegree)) 5 then 10 else 0)
      + (if b then 35 else 0)
      + (if (decide (300 < l) && jsGtN (cent.map (·.totalDegree)) 5) then 25 else 0)
      + (if jsGtQ (cent.map (·.betweenness)) (1 / 2) then 15 else 0) := by
  unfold riskEval
  rw [fst_ruleBetweenness, fst_ruleGod, fst_ruleCycle, fst_ruleOutDegree,
    fst_ruleInDegree, fst_ruleComplexity]
  omega

/-- The record `computeRisks` pushes for a node with positive score. -/
def mkRiskRec (byNode : String → Option CentRec) (cycles : List Cycle) (nd : Node) : RiskRec :=
  let complexity := numOr (nd.data.bind (·.complexity)) 0
  let loc := numOr (nd.data.bind (·.loc)) 0
  let cent := byNode nd.id
  let inCycle : Bool := decide (nd.id ∈ cycles.flatMap (·.nodes))
  let r := riskEval complexity loc cent inCycle
  { nodeId := nd.id
    label := strOr (nd.data.bind (·.label)) nd.id
    riskScore := r.1
    riskLevel := riskLevelOf r.1
    riskFactors := r.2
    complexity := complexity
    loc := loc
    inDegree := cent.map (·.inDegree)
    outDegree := cent.map (·.outDegree)
    inCycle := inCycle }

theorem computeRisks_eq (nodes : List Node) (byNode : String → Option CentRec)
    (cycles : List Cycle) :
    computeRisks nodes byNode cycles =
      sortDescBy (fun r => (r.riskScore : ℚ))
        (nodes.filterMap (fun nd =>
          if 0 < nodeRiskScore byNode cycles nd
          then some (mkRiskRec byNode cycles nd) else none)) := rfl

theorem mem_computeRisks (nodes : List Node) (byNode : String → Option CentRec)
    (cycles : List Cycle) (r : RiskRec) :
    r ∈ computeRisks nodes byNode cycles ↔
      ∃ nd ∈ nodes, 0 < nodeRiskScore byNode cycles nd ∧ r = mkRiskRec byNode cycles nd := by
  rw [computeRisks_eq, mem_sortDescBy, List.mem_filterMap]
  constructor
  · rintro ⟨nd, hnd, hr⟩
    by_cases h : 0 < nodeRiskScore byNode cycles nd
    · rw [if_pos h] at hr
      exact ⟨nd, hnd, h, (Option.some_inj.1 hr).symm⟩
    · rw [if_neg h] at hr
      cases hr
  · rintro ⟨nd, hnd, h, rfl⟩
    exact ⟨nd, hnd, by rw [if_pos h]⟩

end CodeDNA

namespace CodeDNA

/-- A concrete node for the risk-threshold boundary case of the spec:
complexity 21, loc 0, with an all-zero centrality record and no cycles. -/
def riskNodeA : Node :=
  ⟨"A", some ⟨some "A.js", some "A", some "javascript", some 0, some 21, some 0, none⟩⟩

def riskCentA : CentRec := ⟨"A", "A.js", 0, 0, 0, 0, 0⟩

def riskByNodeA : String → Option CentRec :=
  fun v => if v = "A" then some riskCentA else none

theorem riskNodeA_score : nodeRiskScore riskByNodeA [] riskNodeA = 30 := by
  have : nodeRiskScore riskByNodeA [] riskNodeA = (riskEval 21 0 (some riskCentA) false).1 := rfl
  rw [this, riskEval_score_formula]
  norm_num [jsGtN, jsGtQ, riskCentA]

/-- A node carrying no data at all: every risk rule reads its default and
the node scores 0. -/
def riskNodeZero : Node := ⟨"Z", none⟩

/-- C1: `computeRisks` assigns each node the additive score of the six
independent rules (complexity 30/15, inDegree 25/10, outDegree 20/10,
cycle-membership 35, god-module 25, betweenness 15), maps scores `≥ 50` to
`high`, `≥ 25` to `medium`, else `low`, excludes score-0 nodes from the
result, and returns the records sorted descending by `riskScore`; the
boundary node (complexity 21, all degrees 0, loc 0, betweenness 0, not in
a cycle) scores exactly 30 with level `medium`, and scores 24/25/49/50 map
to low/medium/medium/high. -/
theorem computeRisks_spec (nodes : List Node) (byNode : String → Option CentRec)
    (cycles : List Cycle) :
    ((computeRisks nodes byNode cycles).Sorted fun a b => b.riskScore ≤ a.riskScore)
    ∧ (∀ r ∈ computeRisks nodes byNode cycles,
        0 < r.riskScore ∧ r.riskLevel = riskLevelOf r.riskScore)
    ∧ (∀ (c l : Int) (cent : Option CentRec) (b : Bool),
        (riskEval c l cent b).1 =
          (if 20 < c then 30 else if 10 < c then 15 else 0)
          + (if jsGtN (cent.map (·.inDegree)) 5 then 25
             else if jsGtN (cent.map (·.inDegree)) 3 then 10 else 0)
          + (if jsGtN (cent.map (·.outDegree)) 8 then 20
             else if jsGtN (cent.map (·.outDegree)) 5 then 10 else 0)
          + (if b then 35 else 0)
          + (if (decide (300 < l) && jsGtN (cent.map (·.totalDegree)) 5) then 25 else 0)
          + (if jsGtQ (cent.map (·.betweenness)) (1 / 2) then 15 else 0))
    ∧ (∀ s : Nat, riskLevelOf s =
        if 50 ≤ s then "high" else if 25 ≤ s then "medium" else "low")
    ∧ (∀ nd ∈ nodes, 0 < nodeRiskScore byNode cycles nd →
        ∃ r ∈ computeRisks nodes byNode cycles,
          r.nodeId = nd.id ∧ r.riskScore = nodeRiskScore byNode cycles nd)
    ∧ ((nodes.map (·.id)).Nodup →
        ∀ nd ∈ nodes, nodeRiskScore byNode cycles nd = 0 →
          ∀ r ∈ computeRisks nodes byNode cycles, r.nodeId ≠ nd.id)
    ∧ nodeRiskScore riskByNodeA [] riskNodeA = 30
    ∧ (∃ r ∈ computeRisks [riskNodeA] riskByNodeA [],
        r.nodeId = "A" ∧ r.riskScore = 30 ∧ r.riskLevel = "medium")
    ∧ riskLevelOf 24 = "low" ∧ riskLevelOf 25 = "medium"
    ∧ riskLevelOf 49 = "medium" ∧ riskLevelOf 50 = "high" := by
  refine ⟨?_, ?_, riskEval_score_formula, fun s => rfl, ?_, ?_, riskNodeA_score, ?_,
    rfl, rfl, rfl, rfl⟩
  · rw [computeRisks_eq]
    have h := sorted_sortDescBy (fun r : RiskRec => (r.riskScore : ℚ))
      (nodes.filterMap (fun nd =>
        if 0 < nodeRiskScore byNode cycles nd
        then some (mkRiskRec byNode cycles nd) else none))
    exact h.imp (fun hab => by exact_mod_cast hab)
  · intro r hr
    obtain ⟨nd, hnd, hpos, rfl⟩ := (mem_computeRisks nodes byNode cycles r).1 hr
    exact ⟨hpos, rfl⟩
  · intro nd hnd hpos
    exact ⟨mkRiskRec byNode cycles nd,
      (mem_computeRisks nodes byNode cycles _).2 ⟨nd, hnd, hpos, rfl⟩, rfl, rfl⟩
  · intro hnodup nd hnd hzero r hr
    obtain ⟨nd', hnd', hpos, rfl⟩ := (mem_computeRisks nodes byNode cycles r).1 hr
    intro heq
    have : nd' = nd := List.inj_on_of_nodup_map hnodup hnd' hnd heq
    rw [this] at hpos
    omega
  · refine ⟨mkRiskRec riskByNodeA [] riskNodeA,
      (mem_computeRisks _ _ _ _).2 ⟨riskNodeA, by simp, by rw [riskNodeA_score]; omega, rfl⟩,
      rfl, riskNodeA_score, ?_⟩
    show riskLevelOf (nodeRiskScore riskByNodeA [] riskNodeA) = "medium"
    rw [riskNodeA_score]
    rfl

/-- Witness for `computeRisks_spec`: instantiated at the concrete boundary
node (and at a data-less node for the score-0 exclusion), with every
hypothesis discharged. -/
theorem computeRisks_spec_witness :
    (∃ r ∈ computeRisks [riskNodeA] riskByNodeA [],
      r.nodeId = riskNodeA.id ∧ r.riskScore = nodeRiskScore riskByNodeA [] riskNodeA)
    ∧ (∀ r ∈ computeRisks [riskNodeZero] riskByNodeA [], r.nodeId ≠ riskNodeZero.id) := by
  constructor
  · exact (computeRisks_spec [riskNodeA] riskByNodeA []).2.2.2.2.1 riskNodeA
      (by simp) (by rw [riskNodeA_score]; omega)
  · exact (computeRisks_spec [riskNodeZero] riskByNodeA []).2.2.2.2.2.1
      (by simp) riskNodeZero (by simp) (by rfl)

end CodeDNA

namespace CodeDNA

/-! ## Concrete graphs used by several claims -/

/-- A node with no `data` payload. -/
def plainNode (i : String) : Node := ⟨i, none⟩
def selfLoopGraph : Graph := ⟨[plainNode "a"], [⟨"a", "a"⟩]⟩
def twoCycleGraph : Graph := ⟨[plainNode "a", plainNode "b"], [⟨"a", "b"⟩, ⟨"b", "a"⟩]⟩
def chainGraph : Graph := ⟨[plainNode "a", plainNode "b", plainNode "c"], [⟨"a", "b"⟩, ⟨"b", "c"⟩]⟩

/-- C2: `computePageRank` initializes every rank to `1/n`, performs exactly
20 synchronous iterations of `PR(v) = (1-d)/n + d * Σ PR(u)/outDegree(u)`
over incoming neighbors with `d = 0.85` and no early exit; an incoming
neighbor with out-degree 0 contributes nothing; and on `n = 0` PageRank is
skipped and no centrality records are produced. -/
theorem computePageRank_spec (g : Graph) (v : String) (_hv : v ∈ nodeIds g)
    (hn : g.nodes.length ≠ 0) :
    prIter g 0 v = 1 / (g.nodes.length : ℚ)
    ∧ (∀ k, prIter g (k + 1) v =
        (1 - damping) / (g.nodes.length : ℚ)
          + damping * ((revL g v).map (fun u =>
              if 0 < outDeg g u then prIter g k u / (outDeg g u : ℚ) else 0)).sum)
    ∧ damping = 17 / 20
    ∧ (∀ k u, outDeg g u = 0 →
        (if 0 < outDeg g u then prIter g k u / (outDeg g u : ℚ) else 0) = 0)
    ∧ pageRankOf g v = prIter g 20 v
    ∧ (∀ g' : Graph, g'.nodes = [] → (computeCentrality g').byNode = []) := by
  refine ⟨rfl, fun k => rfl, rfl, ?_, ?_, ?_⟩
  · intro k u h
    rw [if_neg]
    omega
  · rw [pageRankOf, if_neg hn]
  · intro g' h
    simp [computeCentrality, h]

/-- Witness for `computePageRank_spec` at the two-node cycle graph. -/
theorem computePageRank_spec_witness :
    prIter twoCycleGraph 0 "a" = 1 / (twoCycleGraph.nodes.length : ℚ)
    ∧ pageRankOf twoCycleGraph "a" = prIter twoCycleGraph 20 "a" := by
  have h := computePageRank_spec twoCycleGraph "a" (by decide) (by decide)
  exact ⟨h.1, h.2.2.2.2.1⟩

end CodeDNA

namespace CodeDNA

/-! ## Sum-partition lemmas for the PageRank mass argument -/

theorem sum_map_ite_zero (xs : List String) (a : String) (c : ℚ) (ha : a ∉ xs) :
    (xs.map (fun v => if a = v then c else 0)).sum = 0 := by
  induction xs with
  | nil => simp
  | cons x xs ih =>
    simp only [List.map_cons, List.sum_cons]
    rw [if_neg (by intro h; exact ha (h ▸ List.mem_cons_self x xs)), ih (fun h => ha (List.mem_cons_of_mem x h))]
    simp

theorem sum_map_ite_eq (xs : List String) (a : String) (c : ℚ)
    (hx : xs.Nodup) (ha : a ∈ xs) :
    (xs.map (fun v => if a = v then c else 0)).sum = c := by
  induction xs with
  | nil => cases ha
  | cons x xs ih =>
    rw [List.nodup_cons] at hx
    simp only [List.map_cons, List.sum_cons]
    rcases List.mem_cons.1 ha with rfl | hmem
    · rw [if_pos rfl, sum_map_ite_zero xs a c hx.1]
      simp
    · rw [if_neg (by rintro rfl; exact hx.1 hmem), ih hx.2 hmem]
      simp

theorem sum_partition (xs : List String) (E : List Edge) (key : Edge → String) (f : Edge → ℚ)
    (hx : xs.Nodup) (hE : ∀ e ∈ E, key e ∈ xs) :
    (xs.map (fun v => ((E.filter (fun e => key e = v)).map f).sum)).sum = (E.map f).sum := by
  induction E with
  | nil => simp
  | cons e E ih =>
    have step : (fun v => (((e :: E).filter (fun e' => key e' = v)).map f).sum)
        = (fun v => (if key e = v then f e else 0)
            + ((E.filter (fun e' => key e' = v)).map f).sum) := by
      funext v
      by_cases h : key e = v <;> simp [List.filter_cons, h]
    rw [step, sum_map_add_q, sum_map_ite_eq xs (key e) (f e) hx (hE e (List.mem_cons_self e E)),
      ih (fun e' he' => hE e' (List.mem_cons_of_mem e he'))]
    simp

theorem sum_map_const_on (l : List Edge) (f : Edge → ℚ) (c : ℚ) (h : ∀ e ∈ l, f e = c) :
    (l.map f).sum = (l.length : ℚ) * c := by
  induction l with
  | nil => simp
  | cons e l ih =>
    simp only [List.map_cons, List.sum_cons, List.length_cons]
    rw [h e (List.mem_cons_self e l), ih (fun e' he' => h e' (List.mem_cons_of_mem e he'))]
    push_cast
    ring

end CodeDNA

namespace CodeDNA

/-! ## PageRank mass conservation (C3) -/

theorem map_congr_mem (l : List String) (f g : String → ℚ)
    (h : ∀ a ∈ l, f a = g a) : l.map f = l.map g := by
  induction l with
  | nil => rfl
  | cons x xs ih =>
    simp only [List.map_cons]
    rw [h x (List.mem_cons_self x xs), ih (fun a ha => h a (List.mem_cons_of_mem x ha))]

theorem outDeg_eq_filter_length (g : Graph) (v : String) (hv : v ∈ nodeIds g) :
    outDeg g v = (g.edges.filter (fun e => e.source = v)).length := by
  rw [outDeg, adjL_eq, if_pos hv, List.length_map]

theorem prIter_sum (g : Graph) (hids : (nodeIds g).Nodup)
    (hsrc : ∀ e ∈ g.edges, e.source ∈ nodeIds g)
    (htgt : ∀ e ∈ g.edges, e.target ∈ nodeIds g)
    (hdang : ∀ v ∈ nodeIds g, 0 < outDeg g v)
    (hne : g.nodes.length ≠ 0) :
    ∀ k, ((nodeIds g).map (prIter g k)).sum = 1 := by
  have hxslen : ((nodeIds g).length : ℚ) = (g.nodes.length : ℚ) := by
    simp [nodeIds]
  have hcast : (g.nodes.length : ℚ) ≠ 0 := Nat.cast_ne_zero.2 hne
  intro k
  induction k with
  | zero =>
    rw [show (prIter g 0) = (fun _ : String => 1 / (g.nodes.length : ℚ)) from
      funext (fun v => by rw [prIter])]
    rw [sum_map_const_q, hxslen]
    field_simp
  | succ k ih =>
    have hS : ((nodeIds g).map (fun v =>
        ((revL g v).map (fun u =>
          if 0 < outDeg g u then prIter g k u / (outDeg g u : ℚ) else 0)).sum)).sum
        = ((nodeIds g).map (prIter g k)).sum := by
      have step1 : ((nodeIds g).map (fun v =>
          ((revL g v).map (fun u =>
            if 0 < outDeg g u then prIter g k u / (outDeg g u : ℚ) else 0)).sum))
          = ((nodeIds g).map (fun v =>
              ((g.edges.filter (fun e => e.target = v)).map (fun e =>
                if 0 < outDeg g e.source
                then prIter g k e.source / (outDeg g e.source : ℚ) else 0)).sum)) := by
        apply map_congr_mem
        intro v hv
        rw [revL_eq, if_pos hv, List.map_map]
        rfl
      have step4 : ((nodeIds g).map (fun v =>
          ((g.edges.filter (fun e => e.source = v)).map (fun e =>
            if 0 < outDeg g e.source
            then prIter g k e.source / (outDeg g e.source : ℚ) else 0)).sum))
          = ((nodeIds g).map (prIter g k)) := by
        apply map_congr_mem
        intro v hv
        have hconst : ∀ e ∈ g.edges.filter (fun e => e.source = v),
            (if 0 < outDeg g e.source
             then prIter g k e.source / (outDeg g e.source : ℚ) else 0)
            = (if 0 < outDeg g v then prIter g k v / (outDeg g v : ℚ) else 0) := by
          intro e he
          have : e.source = v := by
            have := (List.mem_filter.1 he).2
            simpa using this
          rw [this]
        rw [sum_map_const_on _ _ _ hconst, ← outDeg_eq_filter_length g v hv,
          if_pos (hdang v hv), mul_comm,
          div_mul_cancel₀ _ (by exact_mod_cast Nat.pos_iff_ne_zero.1 (hdang v hv))]
      rw [step1,
        sum_partition (nodeIds g) g.edges (·.target)
          (fun e => if 0 < outDeg g e.source
            then prIter g k e.source / (outDeg g e.source : ℚ) else 0) hids htgt,
        ← sum_partition (nodeIds g) g.edges (·.source)
          (fun e => if 0 < outDeg g e.source
            then prIter g k e.source / (outDeg g e.source : ℚ) else 0) hids hsrc,
        step4]
    rw [show (prIter g (k + 1)) = (fun v : String =>
        (1 - damping) / (g.nodes.length : ℚ)
          + damping * ((revL g v).map (fun u =>
              if 0 < outDeg g u then prIter g k u / (outDeg g u : ℚ) else 0)).sum) from
      funext (fun v => by rw [prIter])]
    rw [sum_map_add_q (nodeIds g) (fun _ => (1 - damping) / (g.nodes.length : ℚ))
      (fun v => damping * ((revL g v).map (fun u =>
        if 0 < outDeg g u then prIter g k u / (outDeg g u : ℚ) else 0)).sum)]
    rw [sum_map_const_q, sum_map_mul_left_q, hxslen, hS, ih, damping]
    field_simp
    ring

end CodeDNA

namespace CodeDNA

/-- Every iterate is strictly positive on a nonempty graph. -/
theorem prIter_pos (g : Graph) (hne : g.nodes.length ≠ 0) :
    ∀ k v, 0 < prIter g k v := by
  have hnpos : (0 : ℚ) < (g.nodes.length : ℚ) :=
    Nat.cast_pos.2 (Nat.pos_of_ne_zero hne)
  intro k
  induction k with
  | zero =>
    intro v
    rw [prIter]
    positivity
  | succ k ih =>
    intro v
    rw [prIter]
    have hA : 0 < (1 - damping) / (g.nodes.length : ℚ) := by
      rw [damping]
      positivity
    have hS : 0 ≤ ((revL g v).map (fun u =>
        if 0 < outDeg g u then prIter g k u / (outDeg g u : ℚ) else 0)).sum := by
      apply List.sum_nonneg
      intro x hx
      obtain ⟨u, _, rfl⟩ := List.mem_map.1 hx
      by_cases h : 0 < outDeg g u
      · rw [if_pos h]
        exact div_nonneg (le_of_lt (ih u)) (Nat.cast_nonneg _)
      · rw [if_neg h]
    have hdS : 0 ≤ damping * ((revL g v).map (fun u =>
        if 0 < outDeg g u then prIter g k u / (outDeg g u : ℚ) else 0)).sum :=
      mul_nonneg (by rw [damping]; norm_num) hS
    linarith

/-- C3 (amended): on a nonempty graph whose edges stay inside the node set
and in which no node is dangling, the pageRank values over all nodes sum to
exactly 1, every value lies in `(0, 1]`, and with at least two nodes every
value is strictly below 1. (The original claim's strict upper bound `< 1`
fails on the one-node self-loop graph, see
`pageRank_open_interval_counterexample`.) -/
theorem pageRank_mass_spec (g : Graph) (hids : (nodeIds g).Nodup)
    (hsrc : ∀ e ∈ g.edges, e.source ∈ nodeIds g)
    (htgt : ∀ e ∈ g.edges, e.target ∈ nodeIds g)
    (hdang : ∀ v ∈ nodeIds g, 0 < outDeg g v)
    (hne : g.nodes.length ≠ 0) :
    ((nodeIds g).map (pageRankOf g)).sum = 1
    ∧ (∀ v ∈ nodeIds g, 0 < pageRankOf g v ∧ pageRankOf g v ≤ 1)
    ∧ (2 ≤ g.nodes.length → ∀ v ∈ nodeIds g, pageRankOf g v < 1) := by
  have hpr : pageRankOf g = prIter g 20 := funext fun v => by rw [pageRankOf, if_neg hne]
  have hsum := prIter_sum g hids hsrc htgt hdang hne 20
  have hpos := prIter_pos g hne 20
  have hnonneg : ∀ x ∈ (nodeIds g).map (prIter g 20), 0 ≤ x := by
    intro x hx
    obtain ⟨w, _, rfl⟩ := List.mem_map.1 hx
    exact le_of_lt (hpos w)
  rw [hpr]
  refine ⟨hsum, ?_, ?_⟩
  · intro v hv
    refine ⟨hpos v, ?_⟩
    have hmem : prIter g 20 v ∈ (nodeIds g).map (prIter g 20) :=
      List.mem_map_of_mem _ hv
    have := List.single_le_sum hnonneg _ hmem
    rwa [hsum] at this
  · intro h2 v hv
    have hperm : (nodeIds g).Perm (v :: (nodeIds g).erase v) := List.perm_cons_erase hv
    have hmap : ((nodeIds g).map (prIter g 20)).Perm
        (prIter g 20 v :: ((nodeIds g).erase v).map (prIter g 20)) := by
      simpa using hperm.map (prIter g 20)
    have hsum2 : prIter g 20 v + (((nodeIds g).erase v).map (prIter g 20)).sum = 1 := by
      have h := hmap.sum_eq
      rw [hsum] at h
      simpa using h.symm
    have hlen : 0 < ((nodeIds g).erase v).length := by
      rw [List.length_erase_of_mem hv]
      have : (nodeIds g).length = g.nodes.length := by simp [nodeIds]
      omega
    obtain ⟨u, hu⟩ := List.exists_mem_of_length_pos hlen
    have hule : prIter g 20 u ≤ (((nodeIds g).erase v).map (prIter g 20)).sum :=
      List.single_le_sum
        (fun x hx => by
          obtain ⟨w, _, rfl⟩ := List.mem_map.1 hx
          exact le_of_lt (hpos w))
        _ (List.mem_map_of_mem _ hu)
    have := hpos u
    linarith

/-- On the one-node self-loop graph every PageRank iterate is exactly 1. -/
theorem prIter_selfLoop_one : ∀ k, prIter selfLoopGraph k "a" = 1 := by
  intro k
  induction k with
  | zero =>
    rw [prIter]
    norm_num [selfLoopGraph]
  | succ k ih =>
    have hrev : revL selfLoopGraph "a" = ["a"] := by rfl
    have hout : outDeg selfLoopGraph "a" = 1 := by rfl
    rw [prIter, hrev]
    simp only [List.map_cons, List.map_nil, List.sum_cons, List.sum_nil, hout, ih]
    norm_num [damping, selfLoopGraph]

/-- C3 counterexample: the one-node self-loop graph has no dangling node,
yet its single pageRank value is exactly 1 — not strictly below 1 as the
claim states. -/
theorem pageRank_open_interval_counterexample :
    (nodeIds selfLoopGraph).Nodup
    ∧ (∀ e ∈ selfLoopGraph.edges,
        e.source ∈ nodeIds selfLoopGraph ∧ e.target ∈ nodeIds selfLoopGraph)
    ∧ (∀ v ∈ nodeIds selfLoopGraph, 0 < outDeg selfLoopGraph v)
    ∧ 1 ≤ selfLoopGraph.nodes.length
    ∧ pageRankOf selfLoopGraph "a" = 1
    ∧ ¬ (∀ v ∈ nodeIds selfLoopGraph, pageRankOf selfLoopGraph v < 1) := by
  have h1 : pageRankOf selfLoopGraph "a" = 1 := by
    rw [pageRankOf, if_neg (by decide)]
    exact prIter_selfLoop_one 20
  refine ⟨by decide, by decide, by decide, by decide, h1, ?_⟩
  intro h
  have := h "a" (by decide)
  rw [h1] at this
  exact lt_irrefl 1 this

/-- Witness for `pageRank_mass_spec` at the two-node cycle graph. -/
theorem pageRank_mass_spec_witness :
    ((nodeIds twoCycleGraph).map (pageRankOf twoCycleGraph)).sum = 1
    ∧ 0 < pageRankOf twoCycleGraph "a" ∧ pageRankOf twoCycleGraph "a" ≤ 1
    ∧ pageRankOf twoCycleGraph "a" < 1 := by
  have h := pageRank_mass_spec twoCycleGraph (by decide) (by decide) (by decide)
    (by decide) (by decide)
  have ha := h.2.1 "a" (by decide)
  exact ⟨h.1, ha.1, ha.2, h.2.2 (by decide) "a" (by decide)⟩

end CodeDNA

namespace CodeDNA

/-! ## C7: betweenness normalization bounds -/

theorem le_foldr_max (l : List Nat) (b x : Nat) (hx : x ∈ l) : x ≤ l.foldr max b := by
  induction l with
  | nil => cases hx
  | cons y ys ih =>
    rcases List.mem_cons.1 hx with rfl | h
    · exact le_max_left _ _
    · exact le_trans (ih h) (le_max_right _ _)

theorem base_le_foldr_max (l : List Nat) (b : Nat) : b ≤ l.foldr max b := by
  induction l with
  | nil => exact le_refl b
  | cons y ys ih => exact le_trans ih (le_max_right _ _)

theorem foldr_max_all_zero (l : List Nat) (h : ∀ x ∈ l, x = 0) : l.foldr max 1 = 1 := by
  induction l with
  | nil => rfl
  | cons y ys ih =>
    rw [List.foldr_cons, ih (fun x hx => h x (List.mem_cons_of_mem y hx)),
      h y (List.mem_cons_self y ys)]
    simp

/-- C7: the stored betweenness of every node is its single-path BFS
interior counter divided by the maximum counter (floored at 1), and hence
lies in `[0, 1]`; with all counters 0 the divisor is exactly 1. -/
theorem computeBetweenness_spec (g : Graph) (nd : Node) (h : nd ∈ g.nodes) :
    betweennessOf g nd.id = (counterOf g nd.id : ℚ) / (maxBetweenness g : ℚ)
    ∧ counterOf g nd.id =
        ((nodeIds g).map (fun s => (interiorsOf s (bfsFrom g s)).count nd.id)).sum
    ∧ 1 ≤ maxBetweenness g
    ∧ counterOf g nd.id ≤ maxBetweenness g
    ∧ 0 ≤ betweennessOf g nd.id ∧ betweennessOf g nd.id ≤ 1
    ∧ ((∀ m ∈ g.nodes, counterOf g m.id = 0) → maxBetweenness g = 1) := by
  have hid : nd.id ∈ nodeIds g := List.mem_map_of_mem (·.id) h
  have hmax1 : 1 ≤ maxBetweenness g := base_le_foldr_max _ _
  have hle : counterOf g nd.id ≤ maxBetweenness g :=
    le_foldr_max _ _ _ (List.mem_map_of_mem (counterOf g) hid)
  have hmaxpos : (0 : ℚ) < (maxBetweenness g : ℚ) := by
    exact_mod_cast Nat.lt_of_lt_of_le Nat.zero_lt_one hmax1
  refine ⟨rfl, rfl, hmax1, hle, ?_, ?_, ?_⟩
  · exact div_nonneg (Nat.cast_nonneg _) (Nat.cast_nonneg _)
  · rw [betweennessOf, div_le_one hmaxpos]
    exact_mod_cast hle
  · intro hz
    apply foldr_max_all_zero
    intro x hx
    obtain ⟨v, hv, rfl⟩ := List.mem_map.1 hx
    obtain ⟨m, hm, rfl⟩ := List.mem_map.1 hv
    exact hz m hm

/-- Witness for `computeBetweenness_spec` at the middle node of the
three-node chain. -/
theorem computeBetweenness_spec_witness :
    1 ≤ maxBetweenness chainGraph
    ∧ counterOf chainGraph "b" ≤ maxBetweenness chainGraph
    ∧ 0 ≤ betweennessOf chainGraph "b" ∧ betweennessOf chainGraph "b" ≤ 1 := by
  have h := computeBetweenness_spec chainGraph (plainNode "b") (by decide)
  exact ⟨h.2.2.1, h.2.2.2.1, h.2.2.2.2.1, h.2.2.2.2.2.1⟩

end CodeDNA

namespace CodeDNA

/-! ## C8: degree consistency -/

/-- C8 counterexample: the node `data` object built by `buildGraph` carries
no `inDegree` or `outDegree` field at all — its literal key set is
`label/path/language/loc/complexity/color/importCount`. -/
theorem degreeFields_counterexample :
    ¬ ("inDegree" ∈ buildGraphNodeDataKeys ∨ "outDegree" ∈ buildGraphNodeDataKeys) := by
  decide

/-- C8 (amended): the centrality record of every node has `inDegree` equal
to the number of edges whose target is that node's id and `outDegree`
equal to the number whose source is it (both 0 with no matching edges),
while the nodes produced by `buildGraph` carry no degree fields. -/
theorem degree_consistency_spec (g : Graph) (nd : Node) (h : nd ∈ g.nodes) :
    (computeCentrality g).byNode = g.nodes.map (centRecOf g)
    ∧ (centRecOf g nd).inDegree = (g.edges.filter (fun e => e.target = nd.id)).length
    ∧ (centRecOf g nd).outDegree = (g.edges.filter (fun e => e.source = nd.id)).length
    ∧ ((∀ e ∈ g.edges, e.target ≠ nd.id) → (centRecOf g nd).inDegree = 0)
    ∧ ((∀ e ∈ g.edges, e.source ≠ nd.id) → (centRecOf g nd).outDegree = 0)
    ∧ "inDegree" ∉ buildGraphNodeDataKeys ∧ "outDegree" ∉ buildGraphNodeDataKeys := by
  have hid : nd.id ∈ nodeIds g := List.mem_map_of_mem (·.id) h
  have hin : (centRecOf g nd).inDegree = (g.edges.filter (fun e => e.target = nd.id)).length := by
    show inDeg g nd.id = _
    rw [inDeg, revL_eq, if_pos hid, List.length_map]
  have hout : (centRecOf g nd).outDegree = (g.edges.filter (fun e => e.source = nd.id)).length := by
    show outDeg g nd.id = _
    rw [outDeg, adjL_eq, if_pos hid, List.length_map]
  refine ⟨rfl, hin, hout, ?_, ?_, by decide, by decide⟩
  · intro hz
    rw [hin, List.length_eq_zero]
    rw [List.filter_eq_nil_iff]
    intro e he
    simpa using hz e he
  · intro hz
    rw [hout, List.length_eq_zero]
    rw [List.filter_eq_nil_iff]
    intro e he
    simpa using hz e he

/-- Witness for `degree_consistency_spec` at the middle node of the chain. -/
theorem degree_consistency_spec_witness :
    (centRecOf chainGraph (plainNode "b")).inDegree =
      (chainGraph.edges.filter (fun e => e.target = "b")).length
    ∧ (centRecOf chainGraph (plainNode "b")).outDegree =
      (chainGraph.edges.filter (fun e => e.source = "b")).length := by
  have h := degree_consistency_spec chainGraph (plainNode "b") (by decide)
  exact ⟨h.2.1, h.2.2.1⟩

end CodeDNA

namespace CodeDNA

/-! ## C10: cluster count counts languages only -/

/-- Three nodes sharing one language but spread over three directories. -/
def multiDirGraph : Graph :=
  ⟨[⟨"a", some ⟨none, none, some "javascript", none, none, none, some "src"⟩⟩,
    ⟨"b", some ⟨none, none, some "javascript", none, none, none, some "lib"⟩⟩,
    ⟨"c", some ⟨none, none, some "javascript", none, none, none, some "test"⟩⟩], []⟩

theorem map_fst_update (m : List (String × List ClusterEntry)) (k : String) (e : ClusterEntry) :
    (m.map (fun p => if p.1 == k then (p.1, p.2 ++ [e]) else p)).map (·.1) = m.map (·.1) := by
  induction m with
  | nil => rfl
  | cons p m ih =>
    simp only [List.map_cons]
    rw [ih]
    by_cases hp : (p.1 == k) = true <;> simp [hp]

theorem addEntry_keys (m : List (String × List ClusterEntry)) (k : String) (e : ClusterEntry) :
    (addEntry m k e).map (·.1) =
      if k ∈ m.map (·.1) then m.map (·.1) else m.map (·.1) ++ [k] := by
  unfold addEntry
  have hany : (m.any (fun p => p.1 == k)) = true ↔ k ∈ m.map (·.1) := by
    rw [List.any_eq_true]
    simp only [beq_iff_eq, List.mem_map]
  by_cases h : k ∈ m.map (·.1)
  · rw [if_pos h, if_pos (hany.2 h), map_fst_update]
  · rw [if_neg h, if_neg (fun hc => h (hany.1 hc))]
    simp

/-- Keys of the language/directory grouping fold: nodup, and membership is
exactly the keys already present plus the mapped keys of the nodes. -/
theorem groupFold_keys (keyf : Node → String) (entf : Node → ClusterEntry) :
    ∀ (nodes : List Node) (acc : List (String × List ClusterEntry)),
      (acc.map (·.1)).Nodup →
      (((nodes.foldl (fun m nd => addEntry m (keyf nd) (entf nd)) acc).map (·.1)).Nodup
      ∧ (∀ x, x ∈ (nodes.foldl (fun m nd => addEntry m (keyf nd) (entf nd)) acc).map (·.1)
          ↔ x ∈ acc.map (·.1) ∨ x ∈ nodes.map keyf)) := by
  intro nodes
  induction nodes with
  | nil => intro acc hacc; exact ⟨hacc, fun x => by simp⟩
  | cons nd nodes ih =>
    intro acc hacc
    simp only [List.foldl_cons]
    have hk := addEntry_keys acc (keyf nd) (entf nd)
    by_cases h : keyf nd ∈ acc.map (·.1)
    · rw [if_pos h] at hk
      obtain ⟨h1, h2⟩ := ih (addEntry acc (keyf nd) (entf nd)) (by rw [hk]; exact hacc)
      refine ⟨h1, fun x => ?_⟩
      rw [h2 x, hk]
      simp only [List.map_cons, List.mem_cons]
      constructor
      · rintro (hx | hx)
        · exact Or.inl hx
        · exact Or.inr (Or.inr hx)
      · rintro (hx | rfl | hx)
        · exact Or.inl hx
        · exact Or.inl h
        · exact Or.inr hx
    · rw [if_neg h] at hk
      have hnodup : ((addEntry acc (keyf nd) (entf nd)).map (·.1)).Nodup := by
        rw [hk, List.nodup_append]
        refine ⟨hacc, List.nodup_singleton _, ?_⟩
        intro a ha hb
        rw [List.mem_singleton] at hb
        subst hb
        exact h ha
      obtain ⟨h1, h2⟩ := ih (addEntry acc (keyf nd) (entf nd)) hnodup
      refine ⟨h1, fun x => ?_⟩
      rw [h2 x, hk]
      simp only [List.mem_append, List.mem_singleton, List.map_cons, List.mem_cons]
      tauto

/-- C10: `summary.clusterCount` equals the number of distinct language keys
and is never influenced by directories. -/

theorem clusterCount_spec :
    (∀ g : Graph,
      (computeGraphAnalytics g).summary.clusterCount = (g.nodes.map langOf).toFinset.card)
    ∧ (computeGraphAnalytics multiDirGraph).summary.clusterCount = 1
    ∧ (computeGraphAnalytics multiDirGraph).clusters.byDirectory.length = 3 := by
  refine ⟨?_, by decide, by decide⟩
  intro g
  show (computeClusters g.nodes).byLanguage.length = _
  obtain ⟨h1, h2⟩ := groupFold_keys langOf (fun nd => ⟨nd.id, nd.data.bind (·.label)⟩)
    g.nodes [] (by simp)
  set L := (g.nodes.foldl
    (fun m nd => addEntry m (langOf nd) ⟨nd.id, nd.data.bind (·.label)⟩) []) with hL
  have hlen : (computeClusters g.nodes).byLanguage.length = (L.map (·.1)).length := by
    rw [List.length_map]
    rfl
  have hset : (L.map (·.1)).toFinset = (g.nodes.map langOf).toFinset := by
    apply Finset.ext
    intro x
    rw [List.mem_toFinset, List.mem_toFinset, h2 x]
    simp
  rw [hlen, ← List.toFinset_card_of_nodup h1, hset]

end CodeDNA

namespace CodeDNA

/-! ## C9: empty input -/

/-- The graph for an empty file list. -/
def emptyGraph : Graph := ⟨[], []⟩

/-- C9: an empty file list is not an error — `buildGraph` returns the empty
graph and `computeGraphAnalytics` on it returns the complete result with
every collection empty and every summary count 0, with the betweenness
divisor floored at 1 (no division by zero anywhere). -/
theorem emptyInput_spec :
    (∀ norm basename : String → String, buildGraph norm basename [] = emptyGraph)
    ∧ computeGraphAnalytics emptyGraph =
        { cycles := []
          centrality := { byNode := [], topByDegree := [], topByPageRank := [],
                          topByBetweenness := [] }
          clusters := { byLanguage := [], byDirectory := [], languageCounts := [],
                        directoryCounts := [] }
          risks := []
          summary := { totalCycles := 0, highRiskCount := 0, mediumRiskCount := 0,
                       clusterCount := 0 } }
    ∧ maxBetweenness emptyGraph = 1
    ∧ (computeGraphAnalytics emptyGraph).cycles = []
    ∧ (computeGraphAnalytics emptyGraph).risks = []
    ∧ (computeGraphAnalytics emptyGraph).centrality.byNode = []
    ∧ (computeGraphAnalytics emptyGraph).summary.totalCycles = 0
    ∧ (computeGraphAnalytics emptyGraph).summary.highRiskCount = 0
    ∧ (computeGraphAnalytics emptyGraph).summary.mediumRiskCount = 0
    ∧ (computeGraphAnalytics emptyGraph).summary.clusterCount = 0 := by
  exact ⟨fun norm basename => rfl, rfl, rfl, rfl, rfl, rfl, rfl, rfl, rfl, rfl⟩

end CodeDNA

namespace CodeDNA

/-! ## C5: reported cycle sizes -/

/-- `neighborStep` only appends recorded components, and everything the
recursive exploration appends has more than one member. -/
theorem neighborStep_sccs (recur : String → TarjanState → TarjanState)
    (hrec : ∀ w st, ∃ suf, (recur w st).sccs = st.sccs ++ suf ∧ ∀ c ∈ suf, 1 < c.length)
    (v w : String) (st : TarjanState) :
    ∃ suf, (neighborStep recur v w st).sccs = st.sccs ++ suf ∧ ∀ c ∈ suf, 1 < c.length := by
  rw [neighborStep]
  by_cases h1 : (st.indexM w).isNone
  · rw [if_pos h1]
    obtain ⟨suf, hs, hall⟩ := hrec w st
    exact ⟨suf, by simpa using hs, hall⟩
  · rw [if_neg h1]
    by_cases h2 : st.onStackM w
    · rw [if_pos h2]
      exact ⟨[], by simp, by simp⟩
    · rw [if_neg h2]
      exact ⟨[], by simp, by simp⟩

/-- The neighbor loop only appends components of size `> 1`. -/
theorem visitNeighbors_sccs (recur : String → TarjanState → TarjanState)
    (hrec : ∀ w st, ∃ suf, (recur w st).sccs = st.sccs ++ suf ∧ ∀ c ∈ suf, 1 < c.length)
    (v : String) :
    ∀ (ws : List String) (st : TarjanState),
      ∃ suf, (visitNeighbors recur v ws st).sccs = st.sccs ++ suf ∧ ∀ c ∈ suf, 1 < c.length := by
  intro ws
  induction ws with
  | nil =>
    intro st
    exact ⟨[], by rw [visitNeighbors]; simp, by simp⟩
  | cons w ws ihw =>
    intro st
    rw [visitNeighbors]
    obtain ⟨s1, h1, ha1⟩ := neighborStep_sccs recur hrec v w st
    obtain ⟨s2, h2, ha2⟩ := ihw (neighborStep recur v w st)
    refine ⟨s1 ++ s2, ?_, ?_⟩
    · rw [h2, h1, List.append_assoc]
    · intro c hc
      rcases List.mem_append.1 hc with hc | hc
      · exact ha1 c hc
      · exact ha2 c hc

/-- `popComponent` records only components of size `> 1`. -/
theorem popComponent_sccs (v : String) (st : TarjanState) :
    ∃ suf, (popComponent v st).sccs = st.sccs ++ suf ∧ ∀ c ∈ suf, 1 < c.length := by
  rw [popComponent]
  by_cases h : 1 < (popUntil v st.stack).1.length
  · exact ⟨[(popUntil v st.stack).1], by simp [h], by simpa using h⟩
  · exact ⟨[], by simp [h], by simp⟩

/-- The recorded components only grow under `strongConnect`, and everything
appended has more than one member. -/
theorem strongConnect_sccs : ∀ (fuel : Nat) (adjacency : String → List String)
    (v : String) (st : TarjanState),
    ∃ suf, (strongConnect adjacency fuel v st).sccs = st.sccs ++ suf
      ∧ ∀ c ∈ suf, 1 < c.length := by
  intro fuel
  induction fuel with
  | zero =>
    intro adjacency v st
    exact ⟨[], by rw [strongConnect]; simp, by simp⟩
  | succ fuel ih =>
    intro adjacency v st
    rw [strongConnect]
    obtain ⟨s1, h1, ha1⟩ := visitNeighbors_sccs (strongConnect adjacency fuel) (ih adjacency)
      v (adjacency v) (pushState v st)
    have hpush : (pushState v st).sccs = st.sccs := rfl
    by_cases hroot :
        ((visitNeighbors (strongConnect adjacency fuel) v (adjacency v) (pushState v st)).lowlinkM
            v).getD 0
        = ((visitNeighbors (strongConnect adjacency fuel) v (adjacency v)
            (pushState v st)).indexM v).getD 0
    · rw [if_pos hroot]
      obtain ⟨s2, h2, ha2⟩ :=
        popComponent_sccs v (visitNeighbors (strongConnect adjacency fuel) v (adjacency v)
          (pushState v st))
      refine ⟨s1 ++ s2, ?_, ?_⟩
      · rw [h2, h1, hpush, List.append_assoc]
      · intro c hc
        rcases List.mem_append.1 hc with hc | hc
        · exact ha1 c hc
        · exact ha2 c hc
    · rw [if_neg hroot]
      exact ⟨s1, by rw [h1, hpush], ha1⟩

/-- Every component collected by `tarjanSccs` has more than one member. -/
theorem tarjanSccs_sizes (g : Graph) : ∀ c ∈ tarjanSccs g, 1 < c.length := by
  rw [tarjanSccs]
  have main : ∀ (nodes : List Node) (st : TarjanState),
      (∀ c ∈ st.sccs, 1 < c.length) →
      ∀ c ∈ (nodes.foldl
        (fun st nd =>
          if (st.indexM nd.id).isNone
          then strongConnect (adjL g) (g.nodes.length + g.edges.length + 1) nd.id st
          else st) st).sccs, 1 < c.length := by
    intro nodes
    induction nodes with
    | nil => intro st h; exact h
    | cons nd nodes ih =>
      intro st h
      simp only [List.foldl_cons]
      apply ih
      by_cases hi : (st.indexM nd.id).isNone
      · rw [if_pos hi]
        obtain ⟨suf, hs, hall⟩ :=
          strongConnect_sccs (g.nodes.length + g.edges.length + 1) (adjL g) nd.id st
        rw [hs]
        intro c hc
        rcases List.mem_append.1 hc with hc | hc
        · exact h c hc
        · exact hall c hc
      · rw [if_neg hi]
        exact h
  exact main g.nodes tarjanInit (by intro c hc; cases hc)

end CodeDNA

namespace CodeDNA

theorem snd_mem_of_mem_enumFrom {α : Type} :
    ∀ (l : List α) (n : Nat) (p : Nat × α), p ∈ List.enumFrom n l → p.2 ∈ l := by
  intro l
  induction l with
  | nil => intro n p h; cases h
  | cons x xs ih =>
    intro n p h
    rcases List.mem_cons.1 h with rfl | h
    · exact List.mem_cons_self x xs
    · exact List.mem_cons_of_mem x (ih (n + 1) p h)

/-- C5 counterexample: the one-node graph whose node imports itself has the
self-loop edge, yet `detectCycles` reports no cycle at all — the 1-member
component is dropped by the `scc.length > 1` filter. -/
theorem detectCycles_selfLoop_counterexample :
    Edge.mk "a" "a" ∈ selfLoopGraph.edges ∧ detectCycles selfLoopGraph = [] :=
  ⟨by decide, by rfl⟩

/-- C5 (amended): `detectCycles` never reports a 1-member cycle: every
reported cycle has 2 or more members, so the self-loop node of
`selfLoopGraph` appears in no reported cycle. -/
theorem detectCycles_min_size_spec (g : Graph) :
    (∀ c ∈ detectCycles g, 2 ≤ c.size ∧ 2 ≤ c.nodes.length ∧ c.size = c.nodes.length)
    ∧ detectCycles selfLoopGraph = [] := by
  refine ⟨?_, by rfl⟩
  intro c hc
  rw [detectCycles] at hc
  obtain ⟨p, hp, rfl⟩ := List.mem_map.1 hc
  have hmem : p.2 ∈ tarjanSccs g := snd_mem_of_mem_enumFrom _ 0 p hp
  have := tarjanSccs_sizes g p.2 hmem
  exact ⟨by simpa using this, by simpa using this, rfl⟩

/-- Witness for `detectCycles_min_size_spec`: the size-2 cycle actually
reported on the two-node cycle graph. -/
theorem detectCycles_min_size_spec_witness :
    2 ≤ (Cycle.mk "cycle-1" ["b", "a"] ["b", "a"] 2 "low").size :=
  ((detectCycles_min_size_spec twoCycleGraph).1
    (Cycle.mk "cycle-1" ["b", "a"] ["b", "a"] 2 "low") (by decide)).1

end CodeDNA

namespace CodeDNA

/-! ## C6: edge resolution and dedup -/

theorem dedupEdgesAux_subset : ∀ (seen : List String) (es : List Edge),
    ∀ e ∈ dedupEdgesAux seen es, e ∈ es := by
  intro seen es
  induction es generalizing seen with
  | nil => intro e he; cases he
  | cons x xs ih =>
    intro e he
    rw [dedupEdgesAux] at he
    by_cases h : edgeKey x ∈ seen
    · rw [if_pos h] at he
      exact List.mem_cons_of_mem x (ih seen e he)
    · rw [if_neg h] at he
      rcases List.mem_cons.1 he with rfl | he
      · exact List.mem_cons_self e xs
      · exact List.mem_cons_of_mem x (ih _ e he)

theorem dedupEdgesAux_keys : ∀ (seen : List String) (es : List Edge),
    ((dedupEdgesAux seen es).map edgeKey).Nodup
    ∧ ∀ k ∈ (dedupEdgesAux seen es).map edgeKey, k ∉ seen := by
  intro seen es
  induction es generalizing seen with
  | nil => exact ⟨by simp [dedupEdgesAux], by simp [dedupEdgesAux]⟩
  | cons x xs ih =>
    rw [dedupEdgesAux]
    by_cases h : edgeKey x ∈ seen
    · rw [if_pos h]
      exact ih seen
    · rw [if_neg h]
      obtain ⟨h1, h2⟩ := ih (edgeKey x :: seen)
      refine ⟨?_, ?_⟩
      · simp only [List.map_cons, List.nodup_cons]
        refine ⟨?_, h1⟩
        intro hmem
        exact h2 (edgeKey x) hmem (List.mem_cons_self _ _)
      · intro k hk
        simp only [List.map_cons, List.mem_cons] at hk
        rcases hk with rfl | hk
        · exact h
        · intro hks
          exact h2 k hk (List.mem_cons_of_mem _ hks)

theorem mem_dedupEdgesAux_of_inj : ∀ (seen : List String) (es : List Edge) (e : Edge),
    (∀ e1 ∈ es, ∀ e2 ∈ es, edgeKey e1 = edgeKey e2 → e1 = e2) →
    e ∈ es → edgeKey e ∉ seen → e ∈ dedupEdgesAux seen es := by
  intro seen es
  induction es generalizing seen with
  | nil => intro e _ he; cases he
  | cons x xs ih =>
    intro e hinj he hseen
    rw [dedupEdgesAux]
    by_cases h : edgeKey x ∈ seen
    · rw [if_pos h]
      rcases List.mem_cons.1 he with rfl | he
      · exact absurd h hseen
      · exact ih seen e
          (fun e1 h1 e2 h2 => hinj e1 (List.mem_cons_of_mem x h1) e2 (List.mem_cons_of_mem x h2))
          he hseen
    · rw [if_neg h]
      by_cases hex : e = x
      · subst hex
        exact List.mem_cons_self e _
      · rcases List.mem_cons.1 he with rfl | he
        · exact List.mem_cons_self e _
        · refine List.mem_cons_of_mem x (ih _ e
            (fun e1 h1 e2 h2 => hinj e1 (List.mem_cons_of_mem x h1) e2 (List.mem_cons_of_mem x h2))
            he ?_)
          intro hk
          rcases List.mem_cons.1 hk with hk | hk
          · exact hex (hinj e (List.mem_cons_of_mem x he) x (List.mem_cons_self x xs) hk)
          · exact hseen hk

end CodeDNA

namespace CodeDNA

/-- An edge is produced exactly for the relative imports whose specifier
resolves through the probe list; non-relative and unresolved imports never
produce one. -/
theorem mem_rawEdges (norm : String → String) (files : List PFile) (e : Edge) :
    e ∈ rawEdges norm files ↔
      ∃ f ∈ files, ∃ imp ∈ f.imports, imp.isRelative = true
        ∧ ∃ tf, resolveTarget norm (fileMapOf files) imp.module = some tf
        ∧ e = Edge.mk f.path tf.path := by
  rw [rawEdges, List.mem_flatMap]
  constructor
  · rintro ⟨f, hf, he⟩
    rw [List.mem_filterMap] at he
    obtain ⟨imp, himp, heq⟩ := he
    by_cases hrel : imp.isRelative = true
    · rw [if_pos hrel] at heq
      cases hres : resolveTarget norm (fileMapOf files) imp.module with
      | none => rw [hres] at heq; cases heq
      | some tf =>
        rw [hres] at heq
        exact ⟨f, hf, imp, himp, hrel, tf, hres, (Option.some_inj.1 heq).symm⟩
    · rw [if_neg hrel] at heq
      cases heq
  · rintro ⟨f, hf, imp, himp, hrel, tf, hres, rfl⟩
    refine ⟨f, hf, List.mem_filterMap.2 ⟨imp, himp, ?_⟩⟩
    rw [if_pos hrel, hres]
    rfl

/-- Four files whose paths contain the dedup key separator `->`:
`a` imports `b->c.js` and `a->b` imports `c.js`, producing two distinct
edges with the same dedup key `a->b->c.js`. -/
def fileA : PFile := ⟨"a", "javascript", 0, 1, [⟨"b->c.js", true⟩]⟩
def fileBC : PFile := ⟨"b->c.js", "javascript", 0, 1, []⟩
def fileAB : PFile := ⟨"a->b", "javascript", 0, 1, [⟨"c.js", true⟩]⟩
def fileC : PFile := ⟨"c.js", "javascript", 0, 1, []⟩
def collisionFiles : List PFile := [fileA, fileBC, fileAB, fileC]

/-- C6 counterexample: with node ids containing `->`, the string dedup key
collides — the import from `a->b` resolves to `c.js`, yet the returned
edge list contains no edge `a->b → c.js` (the earlier edge `a → b->c.js`
claimed the key first). -/
theorem buildGraph_dedup_counterexample :
    (∃ imp ∈ fileAB.imports, imp.isRelative = true
      ∧ resolveTarget id (fileMapOf collisionFiles) imp.module = some fileC)
    ∧ Edge.mk "a->b" "c.js" ∈ rawEdges id collisionFiles
    ∧ Edge.mk "a->b" "c.js" ∉ (buildGraph id id collisionFiles).edges := by
  refine ⟨⟨⟨"c.js", true⟩, by decide, rfl, by decide⟩, by decide, by decide⟩

/-- C6 (amended): relative imports are resolved by probing, in fixed order,
the literal specifier, the four extension variants and the four index
variants, first `fileMap` hit wins; non-relative and unresolved imports
yield no edge; the returned edge list never holds two edges with the same
dedup key (hence at most one edge per ordered pair); and provided the key
`source ++ "->" ++ target` is injective on the produced edges — true
whenever no file path contains `->` — an import of A resolving to B yields
exactly one edge A→B. -/
theorem buildGraph_edges_spec (norm basename : String → String) (files : List PFile) :
    (∀ t, resolveTarget norm (fileMapOf files) t
        = (probes t).findSome? (fun p => fileMapOf files (norm p)))
    ∧ (∀ t, probes t = [t, t ++ ".js", t ++ ".jsx", t ++ ".ts", t ++ ".tsx",
        t ++ "/index.js", t ++ "/index.ts", t ++ "/index.jsx", t ++ "/index.tsx"])
    ∧ (∀ e, e ∈ rawEdges norm files ↔
        ∃ f ∈ files, ∃ imp ∈ f.imports, imp.isRelative = true
          ∧ ∃ tf, resolveTarget norm (fileMapOf files) imp.module = some tf
          ∧ e = Edge.mk f.path tf.path)
    ∧ ((buildGraph norm basename files).edges.map edgeKey).Nodup
    ∧ (buildGraph norm basename files).edges.Nodup
    ∧ (∀ e ∈ (buildGraph norm basename files).edges, e ∈ rawEdges norm files)
    ∧ ((∀ e1 ∈ rawEdges norm files, ∀ e2 ∈ rawEdges norm files,
          edgeKey e1 = edgeKey e2 → e1 = e2) →
        ∀ e, e ∈ (buildGraph norm basename files).edges ↔ e ∈ rawEdges norm files) := by
  have hkeys : ((buildGraph norm basename files).edges.map edgeKey).Nodup :=
    (dedupEdgesAux_keys [] (rawEdges norm files)).1
  refine ⟨fun t => rfl, fun t => rfl, mem_rawEdges norm files, hkeys, ?_, ?_, ?_⟩
  · have h := (List.pairwise_map.1 hkeys)
    exact h.imp (fun hne heq => hne (by rw [heq]))
  · intro e he
    exact dedupEdgesAux_subset [] (rawEdges norm files) e he
  · intro hinj e
    constructor
    · intro he
      exact dedupEdgesAux_subset [] (rawEdges norm files) e he
    · intro he
      exact mem_dedupEdgesAux_of_inj [] (rawEdges norm files) e hinj he (by simp)

/-- Files for the C6 witness: two imports of `x.js` resolving to `y.js`
plus an external import. -/
def wFileX : PFile := ⟨"x.js", "javascript", 0, 1, [⟨"y", true⟩, ⟨"y", true⟩, ⟨"pkg", false⟩]⟩
def wFileY : PFile := ⟨"y.js", "javascript", 0, 1, []⟩
def wFiles : List PFile := [wFileX, wFileY]

/-- Witness for `buildGraph_edges_spec`: the doubled import yields exactly
one deduplicated edge. -/
theorem buildGraph_edges_spec_witness :
    Edge.mk "x.js" "y.js" ∈ (buildGraph id id wFiles).edges
    ∧ (buildGraph id id wFiles).edges.Nodup := by
  have h := buildGraph_edges_spec id id wFiles
  refine ⟨(h.2.2.2.2.2.2 (by decide) (Edge.mk "x.js" "y.js")).2 (by decide), h.2.2.2.2.1⟩

end CodeDNA
namespace CodeDNA

/-! ### The reachability relation of the adjacency map, and Tarjan bookkeeping views -/

/-- One directed step of the graph as the analytics walks it: `w` is listed
among `adjacency.get(v) || []`. -/
def EdgeR (adjacency : String → List String) (u v : String) : Prop := v ∈ adjacency u

/-- Reachability: the reflexive-transitive closure of `EdgeR`. -/
def ReachR (adjacency : String → List String) : String → String → Prop :=
  Relation.ReflTransGen (EdgeR adjacency)

/-- Strong connectivity: mutual reachability. -/
def SCCeqR (adjacency : String → List String) (u v : String) : Prop :=
  ReachR adjacency u v ∧ ReachR adjacency v u

/-- A node has been visited when its discovery index is assigned. -/
def visitedS (st : TarjanState) (x : String) : Prop := (st.indexM x).isSome

/-- The discovery index as the code reads it. -/
def idxOf (st : TarjanState) (x : String) : Nat := (st.indexM x).getD 0

/-- The lowlink as the code reads it. -/
def llOf (st : TarjanState) (x : String) : Nat := (st.lowlinkM x).getD 0

/-- A node is retired once visited and off the stack: its component has been
fully popped and it never re-enters the traversal. -/
def retired (st : TarjanState) (x : String) : Prop := visitedS st x ∧ x ∉ st.stack

/-- Count of the still-unvisited nodes of `L` in state `st`; the strictly
decreasing measure that keeps the recursion inside its fuel. -/
def ucOf (L : List String) (st : TarjanState) : Nat :=
  (L.filter (fun x => (st.indexM x).isNone)).length

theorem mapSetN_eq (m : String → Option Nat) (k : String) (v : Nat) :
    mapSetN m k v k = some v := by simp [mapSetN]

theorem mapSetN_ne (m : String → Option Nat) (k : String) (v : Nat) (x : String)
    (h : x ≠ k) : mapSetN m k v x = m x := by simp [mapSetN, h]

theorem mapSetB_eq (m : String → Bool) (k : String) (v : Bool) :
    mapSetB m k v k = v := by simp [mapSetB]

theorem mapSetB_ne (m : String → Bool) (k : String) (v : Bool) (x : String)
    (h : x ≠ k) : mapSetB m k v x = m x := by simp [mapSetB, h]

theorem popUntil_eq (v : String) :
    ∀ (P old : List String), v ∉ P → popUntil v (P ++ v :: old) = (P ++ [v], old) := by
  intro P
  induction P with
  | nil => intro old _; simp [popUntil]
  | cons x P ih =>
    intro old hv
    have hxv : x ≠ v := fun h => hv (h ▸ List.mem_cons_self x P)
    rw [List.cons_append, popUntil, if_neg hxv, ih old (fun h => hv (List.mem_cons_of_mem x h))]
    rfl

theorem clearStack_char (S : List String) (m : String → Bool) (x : String) :
    (S.foldl (fun m w => mapSetB m w false) m) x = if x ∈ S then false else m x := by
  induction S generalizing m with
  | nil => simp
  | cons s S ih =>
    rw [List.foldl_cons, ih]
    by_cases hx : x ∈ S
    · simp [hx, List.mem_cons]
    · by_cases hxs : x = s
      · subst hxs
        simp [hx, mapSetB_eq]
      · simp [hx, hxs, mapSetB_ne m s false x hxs]

theorem visited_pushState (v : String) (st : TarjanState) (x : String) :
    visitedS (pushState v st) x ↔ (x = v ∨ visitedS st x) := by
  unfold visitedS pushState
  by_cases h : x = v
  · subst h; simp [mapSetN_eq]
  · simp [mapSetN_ne _ _ _ _ h, h]

theorem filter_length_mono (L : List String) (p q : String → Bool)
    (h : ∀ x, p x = true → q x = true) :
    (L.filter p).length ≤ (L.filter q).length := by
  induction L with
  | nil => simp
  | cons x xs ih =>
    by_cases hp : p x = true
    · rw [List.filter_cons_of_pos hp, List.filter_cons_of_pos (h x hp)]
      simpa using ih
    · rw [List.filter_cons_of_neg (by simpa using hp)]
      by_cases hq : q x = true
      · rw [List.filter_cons_of_pos hq]
        exact le_trans ih (by simp)
      · rw [List.filter_cons_of_neg (by simpa using hq)]
        exact ih

theorem filter_length_lt (L : List String) (p q : String → Bool)
    (h : ∀ x, p x = true → q x = true) (x : String) (hxL : x ∈ L)
    (hqx : q x = true) (hpx : ¬ p x = true) :
    (L.filter p).length < (L.filter q).length := by
  induction L with
  | nil => cases hxL
  | cons y ys ih =>
    rcases List.mem_cons.1 hxL with rfl | hmem
    · rw [List.filter_cons_of_neg (by simpa using hpx), List.filter_cons_of_pos hqx]
      exact Nat.lt_succ_of_le (filter_length_mono ys p q h)
    · by_cases hpy : p y = true
      · rw [List.filter_cons_of_pos hpy, List.filter_cons_of_pos (h y hpy)]
        simpa using ih hmem
      · rw [List.filter_cons_of_neg (by simpa using hpy)]
        by_cases hqy : q y = true
        · rw [List.filter_cons_of_pos hqy]
          exact Nat.lt_succ_of_le (le_of_lt (ih hmem))
        · rw [List.filter_cons_of_neg (by simpa using hqy)]
          exact ih hmem

theorem ucOf_mono (L : List String) (st st' : TarjanState)
    (h : ∀ x, visitedS st x → visitedS st' x) : ucOf L st' ≤ ucOf L st := by
  apply filter_length_mono
  intro x hx
  rw [Option.isNone_iff_eq_none] at hx ⊢
  by_contra hc
  have hv : visitedS st x := by
    unfold visitedS
    cases hcc : st.indexM x with
    | none => exact absurd hcc hc
    | some i => simp
  have := h x hv
  unfold visitedS at this
  rw [hx] at this
  cases this

theorem ucOf_lt (L : List String) (st st' : TarjanState)
    (h : ∀ x, visitedS st x → visitedS st' x)
    (x : String) (hxL : x ∈ L) (hnew : ¬ visitedS st x) (hvis : visitedS st' x) :
    ucOf L st' < ucOf L st := by
  apply filter_length_lt _ _ _ ?_ x hxL
  · rw [Option.isNone_iff_eq_none]
    unfold visitedS at hnew
    cases hcc : st.indexM x with
    | none => rfl
    | some i => rw [hcc] at hnew; simp at hnew
  · rw [Option.isNone_iff_eq_none]
    unfold visitedS at hvis
    intro hc
    rw [hc] at hvis
    cases hvis
  · intro y hy
    rw [Option.isNone_iff_eq_none] at hy ⊢
    by_contra hc
    have hv : visitedS st y := by
      unfold visitedS
      cases hcc : st.indexM y with
      | none => exact absurd hcc hc
      | some i => simp
    have := h y hv
    unfold visitedS at this
    rw [hy] at this
    cases this

/-! ### The Tarjan state invariant -/

/-- The global invariant of the traversal state between `strongConnect`
steps: the stack is duplicate-free and mirrors the `onStack` flags; stack
nodes are visited, indices stay below the counter, lowlinks never exceed
indices; lower stack nodes reach the ones pushed above them; every
stack node reaches a stack node whose index realizes its lowlink; the
retired set is closed under successors; every recorded component is a
duplicate-free retired strongly connected equivalence class with more than
one member; and every retired node is either in a recorded component or
alone in its class. -/
structure TarjanInv (A : String → List String) (st : TarjanState) : Prop where
  nodup : st.stack.Nodup
  onstack_iff : ∀ x, st.onStackM x = true ↔ x ∈ st.stack
  stack_vis : ∀ x ∈ st.stack, visitedS st x
  idx_lt : ∀ x, visitedS st x → idxOf st x < st.counter
  ll_le : ∀ x ∈ st.stack, llOf st x ≤ idxOf st x
  reach_up : st.stack.Pairwise (fun a b => ReachR A b a)
  ll_wit : ∀ x ∈ st.stack, ∃ z ∈ st.stack, idxOf st z = llOf st x ∧ ReachR A x z
  fin_succ : ∀ x, retired st x → ∀ w ∈ A x, retired st w
  sccs_ok : ∀ S ∈ st.sccs, S.Nodup ∧ 1 < S.length ∧ (∀ u ∈ S, retired st u) ∧
      ∃ r ∈ S, ∀ w, w ∈ S ↔ SCCeqR A r w
  fin_scc : ∀ x, retired st x → (∃ S ∈ st.sccs, x ∈ S) ∨ ∀ w, SCCeqR A x w → w = x

/-- The specification of one completed `strongConnect(v)` call on a
previously unvisited `v`: the invariant is re-established, every already
visited node keeps its index, lowlink and on-stack flag, `v` is visited at
the old counter, newly visited nodes carry fresh indices and are reachable
from `v`, and either `v` rooted its component (stack restored, lowlink
equal to index, `v` retired) or a fresh duplicate-free segment ending at
`v` sits on the stack, all of it freshly visited with fully processed
neighbor bounds, strict lowlinks, and lowlinks at or above that of `v`. -/
def TarjanPost (A : String → List String) (v : String) (st st' : TarjanState) : Prop :=
  TarjanInv A st' ∧
  (∀ x, visitedS st x →
      st'.indexM x = st.indexM x ∧ st'.lowlinkM x = st.lowlinkM x ∧
      st'.onStackM x = st.onStackM x) ∧
  visitedS st' v ∧ idxOf st' v = st.counter ∧
  (∀ x, visitedS st' x → visitedS st x ∨ (st.counter ≤ idxOf st' x ∧ ReachR A v x)) ∧
  ((st'.stack = st.stack ∧ llOf st' v = idxOf st' v ∧ v ∉ st'.stack) ∨
   (∃ Pp, st'.stack = Pp ++ v :: st.stack ∧ v ∉ Pp ∧
      ∀ p ∈ Pp ++ [v], ¬ visitedS st p ∧
        (∀ z ∈ A p, visitedS st' z ∧ (z ∈ st'.stack → llOf st' p ≤ idxOf st' z)) ∧
        llOf st' p < idxOf st' p ∧ llOf st' v ≤ llOf st' p))

/-- Visitedness only grows from a state to any state satisfying the
frozen-old-nodes part of the post-condition. -/
theorem visited_of_frozen (st st' : TarjanState)
    (hfr : ∀ x, visitedS st x →
      st'.indexM x = st.indexM x ∧ st'.lowlinkM x = st.lowlinkM x ∧
      st'.onStackM x = st.onStackM x) :
    ∀ x, visitedS st x → visitedS st' x := by
  intro x hx
  unfold visitedS at hx ⊢
  rw [(hfr x hx).1]
  exact hx

/-- Entering `strongConnect(v)` on an unvisited `v` preserves the invariant:
the push step re-establishes every field. -/
theorem tarjanInv_push (A : String → List String) (v : String) (st : TarjanState)
    (hInv : TarjanInv A st) (hv : ¬ visitedS st v)
    (hreach : ∀ x ∈ st.stack, ReachR A x v) :
    TarjanInv A (pushState v st) := by
  have hvstack : v ∉ st.stack := fun h => hv (hInv.stack_vis v h)
  have hidx : ∀ x, x ≠ v → (pushState v st).indexM x = st.indexM x := by
    intro x hx
    simp [pushState, mapSetN_ne _ _ _ _ hx]
  have hll : ∀ x, x ≠ v → (pushState v st).lowlinkM x = st.lowlinkM x := by
    intro x hx
    simp [pushState, mapSetN_ne _ _ _ _ hx]
  have hvisvne : ∀ x, visitedS st x → x ≠ v := by
    intro x hxv he
    exact hv (he ▸ hxv)
  have hvisiff : ∀ x, visitedS (pushState v st) x ↔ (x = v ∨ visitedS st x) :=
    visited_pushState v st
  have hidxv : idxOf (pushState v st) v = st.counter := by
    simp [idxOf, pushState, mapSetN_eq]
  have hllv : llOf (pushState v st) v = st.counter := by
    simp [llOf, pushState, mapSetN_eq]
  have hidxold : ∀ x, x ≠ v → idxOf (pushState v st) x = idxOf st x := by
    intro x hx
    simp [idxOf, hidx x hx]
  have hllold : ∀ x, x ≠ v → llOf (pushState v st) x = llOf st x := by
    intro x hx
    simp [llOf, hll x hx]
  have hretired : ∀ x, retired (pushState v st) x → retired st x := by
    intro x hx
    obtain ⟨hxv, hxs⟩ := hx
    have hxstack : x ∉ st.stack := by
      intro hc
      exact hxs (by simp [pushState, hc])
    have hxne : x ≠ v := by
      intro he
      subst he
      exact hxs (by simp [pushState])
    refine ⟨?_, hxstack⟩
    rcases (hvisiff x).1 hxv with he | hx2
    · exact absurd he hxne
    · exact hx2
  have hretired2 : ∀ x, retired st x → retired (pushState v st) x := by
    intro x hx
    obtain ⟨hxv, hxs⟩ := hx
    refine ⟨(hvisiff x).2 (Or.inr hxv), ?_⟩
    simp only [pushState, List.mem_cons]
    rintro (he | hc)
    · exact hv (he ▸ hxv)
    · exact hxs hc
  constructor
  · -- nodup
    simp only [pushState]
    exact List.nodup_cons.2 ⟨hvstack, hInv.nodup⟩
  · -- onstack_iff
    intro x
    by_cases hx : x = v
    · subst hx
      simp [pushState, mapSetB_eq]
    · simp only [pushState, mapSetB_ne _ _ _ _ hx, List.mem_cons]
      rw [hInv.onstack_iff x]
      constructor
      · exact Or.inr
      · rintro (he | hm)
        · exact absurd he hx
        · exact hm
  · -- stack_vis
    intro x hx
    simp only [pushState, List.mem_cons] at hx
    rcases hx with he | hm
    · exact (hvisiff x).2 (Or.inl he)
    · exact (hvisiff x).2 (Or.inr (hInv.stack_vis x hm))
  · -- idx_lt
    intro x hx
    have hc : (pushState v st).counter = st.counter + 1 := rfl
    rcases (hvisiff x).1 hx with he | hm
    · subst he
      rw [hc, hidxv]
      omega
    · have := hInv.idx_lt x hm
      rw [hc, hidxold x (hvisvne x hm)]
      omega
  · -- ll_le
    intro x hx
    simp only [pushState, List.mem_cons] at hx
    rcases hx with he | hm
    · subst he
      rw [hidxv, hllv]
    · have hne : x ≠ v := fun he => hvstack (he ▸ hm)
      rw [hidxold x hne, hllold x hne]
      exact hInv.ll_le x hm
  · -- reach_up
    simp only [pushState]
    exact List.pairwise_cons.2 ⟨fun b hb => hreach b hb, hInv.reach_up⟩
  · -- ll_wit
    intro x hx
    simp only [pushState, List.mem_cons] at hx
    rcases hx with he | hm
    · subst he
      refine ⟨x, by simp [pushState], ?_, Relation.ReflTransGen.refl⟩
      rw [hidxv, hllv]
    · have hne : x ≠ v := fun he => hvstack (he ▸ hm)
      obtain ⟨z, hz, hzi, hzr⟩ := hInv.ll_wit x hm
      have hzne : z ≠ v := fun he => hvstack (he ▸ hz)
      refine ⟨z, by simp [pushState, hz], ?_, hzr⟩
      rw [hidxold z hzne, hllold x hne, hzi]
  · -- fin_succ
    intro x hx w hw
    exact hretired2 w (hInv.fin_succ x (hretired x hx) w hw)
  · -- sccs_ok
    intro S hS
    have hS' := hInv.sccs_ok S hS
    exact ⟨hS'.1, hS'.2.1, fun u hu => hretired2 u (hS'.2.2.1 u hu), hS'.2.2.2⟩
  · -- fin_scc
    intro x hx
    exact hInv.fin_scc x (hretired x hx)

/-- The invariant of the `for (const neighbor of neighbors)` loop inside
`strongConnect(v)`, relative to the entry state `st0` (before the push of
`v`): the global invariant holds, already visited nodes are frozen, newly
visited nodes carry fresh indices and are reachable from `v`, the stack is
a fresh segment over `v` over the old stack, `v` is visited at the old
counter, the processed neighbors `done` are visited with the lowlink bound,
and every fresh stack node other than `v` has fully processed neighbor
bounds, a strict lowlink, and a lowlink at or above that of `v`. -/
structure LoopInv (A : String → List String) (st0 : TarjanState) (v : String)
    (done : List String) (st : TarjanState) : Prop where
  inv : TarjanInv A st
  old_idx : ∀ x, visitedS st0 x → st.indexM x = st0.indexM x
  old_ll : ∀ x, visitedS st0 x → st.lowlinkM x = st0.lowlinkM x
  old_os : ∀ x, visitedS st0 x → st.onStackM x = st0.onStackM x
  vis_mono : ∀ x, visitedS st0 x → visitedS st x
  new_char : ∀ x, visitedS st x → ¬ visitedS st0 x → st0.counter ≤ idxOf st x ∧ ReachR A v x
  counter_lt : st0.counter < st.counter
  stack_str : ∃ Pp, st.stack = Pp ++ v :: st0.stack ∧ v ∉ Pp ∧ ∀ p ∈ Pp, ¬ visitedS st0 p
  v_new : ¬ visitedS st0 v
  v_vis : visitedS st v
  v_idx : idxOf st v = st0.counter
  nb_done : ∀ w ∈ done, visitedS st w ∧ (w ∈ st.stack → llOf st v ≤ idxOf st w)
  seg_nb : ∀ p, p ∈ st.stack → ¬ visitedS st0 p → p ≠ v →
      (∀ z ∈ A p, visitedS st z ∧ (z ∈ st.stack → llOf st p ≤ idxOf st z)) ∧
      llOf st p < idxOf st p ∧ llOf st v ≤ llOf st p

/-- During the loop, every node on the stack reaches `v`: old stack nodes by
the call precondition, fresh ones by descending the lowlink witnesses. -/
theorem loop_stack_reaches (A : String → List String) (st0 : TarjanState) (v : String)
    (done : List String) (st : TarjanState)
    (hreach0 : ∀ x ∈ st0.stack, ReachR A x v)
    (hL : LoopInv A st0 v done st) : ∀ x ∈ st.stack, ReachR A x v := by
  suffices H : ∀ n x, x ∈ st.stack → idxOf st x < n → ReachR A x v by
    intro x hx
    exact H (idxOf st x + 1) x hx (Nat.lt_succ_self _)
  intro n
  induction n with
  | zero => intro x _ h; omega
  | succ n ih =>
    intro x hx hlt
    obtain ⟨Pp, hst, hvPp, hPpnew⟩ := hL.stack_str
    rw [hst] at hx
    rcases List.mem_append.1 hx with hxP | hxold
    · have hxnew : ¬ visitedS st0 x := hPpnew x hxP
      have hxne : x ≠ v := fun he => hvPp (he ▸ hxP)
      have hxstack : x ∈ st.stack := by
        rw [hst]
        exact List.mem_append_left _ hxP
      obtain ⟨_, hlt2, _⟩ := hL.seg_nb x hxstack hxnew hxne
      obtain ⟨z, hz, hzi, hzr⟩ := hL.inv.ll_wit x hxstack
      have hzn : idxOf st z < n := by omega
      exact Relation.ReflTransGen.trans hzr (ih z hz hzn)
    · rcases List.mem_cons.1 hxold with he | hold
      · subst he
        exact Relation.ReflTransGen.refl
      · exact hreach0 x hold

/-- Overwriting of the current node's lowlink, the only state change the
neighbor loop performs besides the recursive calls. -/
def mergeLL (st : TarjanState) (v : String) (a : Nat) : TarjanState :=
  { st with lowlinkM := mapSetN st.lowlinkM v a }

theorem mergeLL_indexM (st : TarjanState) (v : String) (a : Nat) :
    (mergeLL st v a).indexM = st.indexM := rfl

theorem mergeLL_onStackM (st : TarjanState) (v : String) (a : Nat) :
    (mergeLL st v a).onStackM = st.onStackM := rfl

theorem mergeLL_stack (st : TarjanState) (v : String) (a : Nat) :
    (mergeLL st v a).stack = st.stack := rfl

theorem mergeLL_sccs (st : TarjanState) (v : String) (a : Nat) :
    (mergeLL st v a).sccs = st.sccs := rfl

theorem mergeLL_counter (st : TarjanState) (v : String) (a : Nat) :
    (mergeLL st v a).counter = st.counter := rfl

theorem mergeLL_visited (st : TarjanState) (v : String) (a : Nat) (x : String) :
    visitedS (mergeLL st v a) x ↔ visitedS st x := Iff.rfl

theorem mergeLL_idxOf (st : TarjanState) (v : String) (a : Nat) (x : String) :
    idxOf (mergeLL st v a) x = idxOf st x := rfl

theorem mergeLL_retired (st : TarjanState) (v : String) (a : Nat) (x : String) :
    retired (mergeLL st v a) x ↔ retired st x := Iff.rfl

theorem mergeLL_llOf_eq (st : TarjanState) (v : String) (a : Nat) :
    llOf (mergeLL st v a) v = a := by
  simp [llOf, mergeLL, mapSetN_eq]

theorem mergeLL_llOf_ne (st : TarjanState) (v : String) (a : Nat) (x : String) (h : x ≠ v) :
    llOf (mergeLL st v a) x = llOf st x := by
  simp [llOf, mergeLL, mapSetN_ne _ _ _ _ h]

theorem mergeLL_lowlinkM_ne (st : TarjanState) (v : String) (a : Nat) (x : String)
    (h : x ≠ v) : (mergeLL st v a).lowlinkM x = st.lowlinkM x := by
  simp [mergeLL, mapSetN_ne _ _ _ _ h]

theorem visited_iff_not_isNone (st : TarjanState) (x : String) :
    visitedS st x ↔ ¬ (st.indexM x).isNone := by
  cases h : st.indexM x <;> simp [visitedS, h]

/-- The lowlink merge at the current node preserves the global invariant
as long as it only lowers the lowlink and the new value is realized by a
reachable stack node. -/
theorem tarjanInv_mergeLL (A : String → List String) (st : TarjanState) (v : String) (a : Nat)
    (hInv : TarjanInv A st) (hv : v ∈ st.stack) (hle : a ≤ llOf st v)
    (hwit : ∃ z ∈ st.stack, idxOf st z = a ∧ ReachR A v z) :
    TarjanInv A (mergeLL st v a) := by
  constructor
  · rw [mergeLL_stack]
    exact hInv.nodup
  · intro x
    rw [mergeLL_stack]
    exact hInv.onstack_iff x
  · intro x hx
    rw [mergeLL_stack] at hx
    exact (mergeLL_visited st v a x).2 (hInv.stack_vis x hx)
  · intro x hx
    rw [mergeLL_idxOf, mergeLL_counter]
    exact hInv.idx_lt x ((mergeLL_visited st v a x).1 hx)
  · intro x hx
    rw [mergeLL_stack] at hx
    rw [mergeLL_idxOf]
    by_cases hxv : x = v
    · subst hxv
      rw [mergeLL_llOf_eq]
      exact le_trans hle (hInv.ll_le x hx)
    · rw [mergeLL_llOf_ne _ _ _ _ hxv]
      exact hInv.ll_le x hx
  · rw [mergeLL_stack]
    exact hInv.reach_up
  · intro x hx
    rw [mergeLL_stack] at hx ⊢
    by_cases hxv : x = v
    · subst hxv
      obtain ⟨z, hz, hzi, hzr⟩ := hwit
      refine ⟨z, hz, ?_, hzr⟩
      rw [mergeLL_idxOf, mergeLL_llOf_eq, hzi]
    · obtain ⟨z, hz, hzi, hzr⟩ := hInv.ll_wit x hx
      refine ⟨z, hz, ?_, hzr⟩
      rw [mergeLL_idxOf, mergeLL_llOf_ne _ _ _ _ hxv, hzi]
  · intro x hx w hw
    exact (mergeLL_retired st v a w).2 (hInv.fin_succ x ((mergeLL_retired st v a x).1 hx) w hw)
  · intro S hS
    rw [mergeLL_sccs] at hS
    have h := hInv.sccs_ok S hS
    exact ⟨h.1, h.2.1, fun u hu => (mergeLL_retired st v a u).2 (h.2.2.1 u hu), h.2.2.2⟩
  · intro x hx
    rw [mergeLL_sccs]
    exact hInv.fin_scc x ((mergeLL_retired st v a x).1 hx)

/-- Unfolding of `neighborStep` on an unvisited neighbor. -/
theorem neighborStep_unvis (recur : String → TarjanState → TarjanState) (v w : String)
    (st : TarjanState) (h : (st.indexM w).isNone) :
    neighborStep recur v w st =
      mergeLL (recur w st) v (min (llOf (recur w st) v) (llOf (recur w st) w)) := by
  simp only [neighborStep, mergeLL, llOf]
  rw [if_pos h]

/-- Unfolding of `neighborStep` on a visited neighbor still on the stack. -/
theorem neighborStep_onstack (recur : String → TarjanState → TarjanState) (v w : String)
    (st : TarjanState) (h : ¬ (st.indexM w).isNone) (h2 : st.onStackM w = true) :
    neighborStep recur v w st = mergeLL st v (min (llOf st v) (idxOf st w)) := by
  simp only [neighborStep, mergeLL, llOf, idxOf]
  rw [if_neg h, if_pos h2]

/-- Unfolding of `neighborStep` on a retired neighbor: a no-op. -/
theorem neighborStep_skip (recur : String → TarjanState → TarjanState) (v w : String)
    (st : TarjanState) (h : ¬ (st.indexM w).isNone) (h2 : ¬ st.onStackM w = true) :
    neighborStep recur v w st = st := by
  simp only [neighborStep]
  rw [if_neg h, if_neg h2]

/-- Processing a retired neighbor only records it as done. -/
theorem loopInv_step_skip (A : String → List String) (st0 : TarjanState) (v : String)
    (done : List String) (st : TarjanState) (w : String)
    (hL : LoopInv A st0 v done st)
    (hvis : ¬ (st.indexM w).isNone) (hos : ¬ st.onStackM w = true) :
    LoopInv A st0 v (done ++ [w]) st := by
  refine ⟨hL.inv, hL.old_idx, hL.old_ll, hL.old_os, hL.vis_mono, hL.new_char, hL.counter_lt,
    hL.stack_str, hL.v_new, hL.v_vis, hL.v_idx, ?_, hL.seg_nb⟩
  intro w' hw'
  rcases List.mem_append.1 hw' with h | h
  · exact hL.nb_done w' h
  · have he : w' = w := by simpa using h
    subst he
    refine ⟨(visited_iff_not_isNone st w').2 hvis, ?_⟩
    intro hc
    exact absurd ((hL.inv.onstack_iff w').2 hc) hos

/-- Processing a visited neighbor still on the stack merges its index into
the lowlink of `v` and preserves the loop invariant. -/
theorem loopInv_step_onstack (A : String → List String) (st0 : TarjanState) (v : String)
    (done : List String) (st : TarjanState) (w : String)
    (hL : LoopInv A st0 v done st) (hw : w ∈ A v)
    (hvis : ¬ (st.indexM w).isNone) (hos : st.onStackM w = true) :
    LoopInv A st0 v (done ++ [w]) (mergeLL st v (min (llOf st v) (idxOf st w))) := by
  obtain ⟨Pp, hstk, hvPp, hPpnew⟩ := hL.stack_str
  have hvstk : v ∈ st.stack := by
    rw [hstk]
    exact List.mem_append_right _ (List.mem_cons_self _ _)
  have hInvM : TarjanInv A (mergeLL st v (min (llOf st v) (idxOf st w))) := by
    apply tarjanInv_mergeLL A st v _ hL.inv hvstk (min_le_left _ _)
    rcases le_total (llOf st v) (idxOf st w) with hc | hc
    · rw [min_eq_left hc]
      exact hL.inv.ll_wit v hvstk
    · rw [min_eq_right hc]
      exact ⟨w, (hL.inv.onstack_iff w).1 hos, rfl, Relation.ReflTransGen.single hw⟩
  refine ⟨hInvM, ?_, ?_, ?_, ?_, ?_, ?_, ?_, hL.v_new, ?_, ?_, ?_, ?_⟩
  · intro x hx0
    rw [mergeLL_indexM]
    exact hL.old_idx x hx0
  · intro x hx0
    have hxv : x ≠ v := fun he => hL.v_new (he ▸ hx0)
    rw [mergeLL_lowlinkM_ne st v _ x hxv]
    exact hL.old_ll x hx0
  · intro x hx0
    rw [mergeLL_onStackM]
    exact hL.old_os x hx0
  · intro x hx0
    exact (mergeLL_visited _ _ _ x).2 (hL.vis_mono x hx0)
  · intro x hx hnx0
    obtain ⟨hge, hr⟩ := hL.new_char x ((mergeLL_visited _ _ _ x).1 hx) hnx0
    refine ⟨?_, hr⟩
    rw [mergeLL_idxOf]
    exact hge
  · rw [mergeLL_counter]
    exact hL.counter_lt
  · refine ⟨Pp, ?_, hvPp, hPpnew⟩
    rw [mergeLL_stack, hstk]
  · exact (mergeLL_visited _ _ _ v).2 hL.v_vis
  · rw [mergeLL_idxOf]
    exact hL.v_idx
  · intro w' hw'
    rcases List.mem_append.1 hw' with h | h
    · obtain ⟨hv', hb⟩ := hL.nb_done w' h
      refine ⟨(mergeLL_visited _ _ _ w').2 hv', ?_⟩
      intro hmem
      rw [mergeLL_stack] at hmem
      rw [mergeLL_llOf_eq, mergeLL_idxOf]
      exact le_trans (min_le_left _ _) (hb hmem)
    · have he : w' = w := by simpa using h
      subst he
      refine ⟨(mergeLL_visited _ _ _ w').2 ((visited_iff_not_isNone st w').2 hvis), ?_⟩
      intro _
      rw [mergeLL_llOf_eq, mergeLL_idxOf]
      exact min_le_right _ _
  · intro p hp hp0 hpv
    rw [mergeLL_stack] at hp
    obtain ⟨hNB, hlt, hge⟩ := hL.seg_nb p hp hp0 hpv
    refine ⟨?_, ?_, ?_⟩
    · intro z hz
      obtain ⟨hvz, hbz⟩ := hNB z hz
      refine ⟨(mergeLL_visited _ _ _ z).2 hvz, ?_⟩
      intro hzmem
      rw [mergeLL_stack] at hzmem
      rw [mergeLL_llOf_ne st v _ p hpv, mergeLL_idxOf]
      exact hbz hzmem
    · rw [mergeLL_llOf_ne st v _ p hpv, mergeLL_idxOf]
      exact hlt
    · rw [mergeLL_llOf_eq, mergeLL_llOf_ne st v _ p hpv]
      exact le_trans (min_le_left _ _) hge

/-- Processing an unvisited neighbor recurses and merges the child's
lowlink; the loop invariant is preserved given the specification of the
recursive call. -/
theorem loopInv_step_unvis (A : String → List String) (L : List String)
    (hA : ∀ x ∈ L, ∀ w ∈ A x, w ∈ L)
    (fuel : Nat) (recur : String → TarjanState → TarjanState)
    (hrec : ∀ w st, TarjanInv A st → w ∈ L → ¬ visitedS st w →
        (∀ x ∈ st.stack, ReachR A x w) → ucOf L st ≤ fuel →
        TarjanPost A w st (recur w st))
    (st0 : TarjanState) (v : String) (hvL : v ∈ L)
    (hreach0 : ∀ x ∈ st0.stack, ReachR A x v)
    (hfuel : ucOf L st0 ≤ fuel + 1)
    (done : List String) (w : String) (hw : w ∈ A v)
    (st : TarjanState) (hL : LoopInv A st0 v done st)
    (hwn : (st.indexM w).isNone) :
    LoopInv A st0 v (done ++ [w])
      (mergeLL (recur w st) v (min (llOf (recur w st) v) (llOf (recur w st) w))) := by
  have hwL : w ∈ L := hA v hvL w hw
  have hwnv : ¬ visitedS st w := fun hc => (visited_iff_not_isNone st w).1 hc hwn
  have hreachw : ∀ x ∈ st.stack, ReachR A x w := fun x hx =>
    Relation.ReflTransGen.trans (loop_stack_reaches A st0 v done st hreach0 hL x hx)
      (Relation.ReflTransGen.single hw)
  have hucst : ucOf L st ≤ fuel := by
    have h1 := ucOf_lt L st0 st hL.vis_mono v hvL hL.v_new hL.v_vis
    omega
  obtain ⟨hInvS, hfr, hwvis, hwidx, hnewS, hdich⟩ := hrec w st hL.inv hwL hwnv hreachw hucst
  set s := recur w st with hs
  have hvisms : ∀ x, visitedS st x → visitedS s x := visited_of_frozen st s hfr
  have hvne_w : v ≠ w := fun he => hwnv (he ▸ hL.v_vis)
  have hidxv_s : idxOf s v = idxOf st v := by
    unfold idxOf
    rw [(hfr v hL.v_vis).1]
  have hllv_s : llOf s v = llOf st v := by
    unfold llOf
    rw [(hfr v hL.v_vis).2.1]
  obtain ⟨Pp, hstk, hvPp, hPpnew⟩ := hL.stack_str
  have hvstk : v ∈ st.stack := by
    rw [hstk]
    exact List.mem_append_right _ (List.mem_cons_self _ _)
  have hvstk_s : v ∈ s.stack := by
    rcases hdich with ⟨ha, _, _⟩ | ⟨Pq, hq, _, _⟩
    · rw [ha]
      exact hvstk
    · rw [hq]
      exact List.mem_append_right _ (List.mem_cons_of_mem _ hvstk)
  have hcnt_s : st.counter < s.counter := by
    have h1 := hInvS.idx_lt w hwvis
    omega
  -- a node of the stack of `s` that was visited before the call sits in the old stack
  have hold_of_vis : ∀ z, visitedS st z → z ∈ s.stack → z ∈ st.stack := by
    intro z hvz hzs
    rcases hdich with ⟨ha, _, _⟩ | ⟨Pq, hq, _, hseg⟩
    · rwa [ha] at hzs
    · rw [hq] at hzs
      rcases List.mem_append.1 hzs with h | h
      · exact absurd hvz (hseg z (List.mem_append_left _ h)).1
      · rcases List.mem_cons.1 h with he | h2
        · exact absurd hvz (he ▸ (hseg w (List.mem_append_right _ (List.mem_cons_self _ _))).1)
        · exact h2
  have hInvM : TarjanInv A (mergeLL s v (min (llOf s v) (llOf s w))) := by
    apply tarjanInv_mergeLL A s v _ hInvS hvstk_s (min_le_left _ _)
    rcases le_total (llOf s v) (llOf s w) with hc | hc
    · rw [min_eq_left hc]
      exact hInvS.ll_wit v hvstk_s
    · rw [min_eq_right hc]
      rcases hdich with ⟨ha, hroot, hnostk⟩ | ⟨Pq, hq, hwPq, hseg⟩
      · exfalso
        have h1 : llOf st v ≤ idxOf st v := hL.inv.ll_le v hvstk
        have h2 := hL.counter_lt
        have h3 := hL.v_idx
        rw [hllv_s] at hc
        rw [hroot, hwidx] at hc
        omega
      · have hwstk_s : w ∈ s.stack := by
          rw [hq]
          exact List.mem_append_right _ (List.mem_cons_self _ _)
        obtain ⟨z, hz, hzi, hzr⟩ := hInvS.ll_wit w hwstk_s
        exact ⟨z, hz, hzi,
          Relation.ReflTransGen.trans (Relation.ReflTransGen.single hw) hzr⟩
  refine ⟨hInvM, ?_, ?_, ?_, ?_, ?_, ?_, ?_, hL.v_new, ?_, ?_, ?_, ?_⟩
  · intro x hx0
    rw [mergeLL_indexM, (hfr x (hL.vis_mono x hx0)).1]
    exact hL.old_idx x hx0
  · intro x hx0
    have hxv : x ≠ v := fun he => hL.v_new (he ▸ hx0)
    rw [mergeLL_lowlinkM_ne s v _ x hxv, (hfr x (hL.vis_mono x hx0)).2.1]
    exact hL.old_ll x hx0
  · intro x hx0
    rw [mergeLL_onStackM, (hfr x (hL.vis_mono x hx0)).2.2]
    exact hL.old_os x hx0
  · intro x hx0
    exact (mergeLL_visited _ _ _ x).2 (hvisms x (hL.vis_mono x hx0))
  · intro x hx hnx0
    have hxs : visitedS s x := (mergeLL_visited _ _ _ x).1 hx
    by_cases hxst : visitedS st x
    · obtain ⟨hge, hr⟩ := hL.new_char x hxst hnx0
      refine ⟨?_, hr⟩
      rw [mergeLL_idxOf]
      unfold idxOf
      rw [(hfr x hxst).1]
      exact hge
    · rcases hnewS x hxs with hvst | ⟨hge, hr⟩
      · exact absurd hvst hxst
      · have h2 := hL.counter_lt
        refine ⟨?_, Relation.ReflTransGen.trans (Relation.ReflTransGen.single hw) hr⟩
        rw [mergeLL_idxOf]
        omega
  · rw [mergeLL_counter]
    have := hL.counter_lt
    omega
  · rcases hdich with ⟨ha, _, _⟩ | ⟨Pq, hq, hwPq, hseg⟩
    · refine ⟨Pp, ?_, hvPp, hPpnew⟩
      rw [mergeLL_stack, ha, hstk]
    · refine ⟨Pq ++ w :: Pp, ?_, ?_, ?_⟩
      · rw [mergeLL_stack, hq, hstk]
        simp
      · intro hc
        rcases List.mem_append.1 hc with h | h
        · exact (hseg v (List.mem_append_left _ h)).1 hL.v_vis
        · rcases List.mem_cons.1 h with he | h2
          · exact hvne_w he
          · exact hvPp h2
      · intro p hp
        rcases List.mem_append.1 hp with h | h
        · exact fun h0 => (hseg p (List.mem_append_left _ h)).1 (hL.vis_mono p h0)
        · rcases List.mem_cons.1 h with he | h2
          · exact he ▸ fun h0 => hwnv (hL.vis_mono w h0)
          · exact hPpnew p h2
  · exact (mergeLL_visited _ _ _ v).2 (hvisms v hL.v_vis)
  · rw [mergeLL_idxOf, hidxv_s]
    exact hL.v_idx
  · intro w' hw'
    rcases List.mem_append.1 hw' with h | h
    · obtain ⟨hv', hb⟩ := hL.nb_done w' h
      refine ⟨(mergeLL_visited _ _ _ w').2 (hvisms w' hv'), ?_⟩
      intro hmem
      rw [mergeLL_stack] at hmem
      have hmem' : w' ∈ st.stack := hold_of_vis w' hv' hmem
      rw [mergeLL_llOf_eq, mergeLL_idxOf]
      unfold idxOf
      rw [(hfr w' hv').1]
      exact le_trans (le_trans (min_le_left _ _) (le_of_eq hllv_s)) (hb hmem')
    · have he : w' = w := by simpa using h
      subst he
      refine ⟨(mergeLL_visited _ _ _ w').2 hwvis, ?_⟩
      intro hmem
      rw [mergeLL_stack] at hmem
      rw [mergeLL_llOf_eq, mergeLL_idxOf]
      exact le_trans (min_le_right _ _) (hInvS.ll_le w' hmem)
  · intro p hp hp0 hpv
    rw [mergeLL_stack] at hp
    have hllp' : llOf (mergeLL s v (min (llOf s v) (llOf s w))) p = llOf s p :=
      mergeLL_llOf_ne s v _ p hpv
    by_cases hpst : visitedS st p
    · have hpstk : p ∈ st.stack := hold_of_vis p hpst hp
      obtain ⟨hNB, hlt, hge⟩ := hL.seg_nb p hpstk hp0 hpv
      have hllps : llOf s p = llOf st p := by
        unfold llOf
        rw [(hfr p hpst).2.1]
      have hidxps : idxOf s p = idxOf st p := by
        unfold idxOf
        rw [(hfr p hpst).1]
      refine ⟨?_, ?_, ?_⟩
      · intro z hz
        obtain ⟨hvz, hbz⟩ := hNB z hz
        refine ⟨(mergeLL_visited _ _ _ z).2 (hvisms z hvz), ?_⟩
        intro hzmem
        rw [mergeLL_stack] at hzmem
        have hzstk : z ∈ st.stack := hold_of_vis z hvz hzmem
        rw [hllp', hllps, mergeLL_idxOf]
        unfold idxOf
        rw [(hfr z hvz).1]
        exact hbz hzstk
      · rw [hllp', hllps, mergeLL_idxOf, hidxps]
        exact hlt
      · rw [mergeLL_llOf_eq, hllp', hllps]
        exact le_trans (le_trans (min_le_left _ _) (le_of_eq hllv_s)) hge
    · rcases hdich with ⟨ha, _, _⟩ | ⟨Pq, hq, hwPq, hseg⟩
      · exfalso
        rw [ha] at hp
        exact hpst (hL.inv.stack_vis p hp)
      · have hpseg : p ∈ Pq ++ [w] := by
          rw [hq] at hp
          rcases List.mem_append.1 hp with h | h
          · exact List.mem_append_left _ h
          · rcases List.mem_cons.1 h with he | h2
            · exact he ▸ List.mem_append_right _ (List.mem_cons_self _ _)
            · exact absurd (hL.inv.stack_vis p h2) hpst
        obtain ⟨hnv, hNB, hlt, hge⟩ := hseg p hpseg
        refine ⟨?_, ?_, ?_⟩
        · intro z hz
          obtain ⟨hvz, hbz⟩ := hNB z hz
          refine ⟨(mergeLL_visited _ _ _ z).2 hvz, ?_⟩
          intro hzmem
          rw [mergeLL_stack] at hzmem
          rw [hllp', mergeLL_idxOf]
          exact hbz hzmem
        · rw [hllp', mergeLL_idxOf]
          exact hlt
        · rw [mergeLL_llOf_eq, hllp']
          exact le_trans (min_le_right _ _) hge

/-- The neighbor loop carries the loop invariant through to the full
neighbor list. -/
theorem visitNeighbors_loopInv (A : String → List String) (L : List String)
    (hA : ∀ x ∈ L, ∀ w ∈ A x, w ∈ L)
    (fuel : Nat) (recur : String → TarjanState → TarjanState)
    (hrec : ∀ w st, TarjanInv A st → w ∈ L → ¬ visitedS st w →
        (∀ x ∈ st.stack, ReachR A x w) → ucOf L st ≤ fuel →
        TarjanPost A w st (recur w st))
    (st0 : TarjanState) (v : String) (hvL : v ∈ L)
    (hreach0 : ∀ x ∈ st0.stack, ReachR A x v)
    (hfuel : ucOf L st0 ≤ fuel + 1) :
    ∀ (ws done : List String) (st : TarjanState), A v = done ++ ws →
      LoopInv A st0 v done st →
      LoopInv A st0 v (A v) (visitNeighbors recur v ws st) := by
  intro ws
  induction ws with
  | nil =>
    intro done st hsplit hL
    rw [visitNeighbors]
    rw [List.append_nil] at hsplit
    rwa [hsplit]
  | cons w ws ih =>
    intro done st hsplit hL
    rw [visitNeighbors]
    have hw : w ∈ A v := by
      rw [hsplit]
      exact List.mem_append_right _ (List.mem_cons_self _ _)
    have hstep : LoopInv A st0 v (done ++ [w]) (neighborStep recur v w st) := by
      by_cases h1 : (st.indexM w).isNone
      · rw [neighborStep_unvis recur v w st h1]
        exact loopInv_step_unvis A L hA fuel recur hrec st0 v hvL hreach0 hfuel done w hw st hL h1
      · by_cases h2 : st.onStackM w = true
        · rw [neighborStep_onstack recur v w st h1 h2]
          exact loopInv_step_onstack A st0 v done st w hL hw h1 h2
        · rw [neighborStep_skip recur v w st h1 h2]
          exact loopInv_step_skip A st0 v done st w hL h1 h2
    refine ih (done ++ [w]) _ ?_ hstep
    rw [hsplit, List.append_assoc]
    rfl

/-- Exiting `strongConnect(v)` without rooting a component: the fresh
segment stays on the stack and realizes the second branch of the
post-condition. -/
theorem loopInv_notroot (A : String → List String) (st0 : TarjanState) (v : String)
    (st : TarjanState) (hL : LoopInv A st0 v (A v) st)
    (hnr : llOf st v ≠ idxOf st v) :
    TarjanPost A v st0 st := by
  obtain ⟨Pp, hstk, hvPp, hPpnew⟩ := hL.stack_str
  have hvstk : v ∈ st.stack := by
    rw [hstk]
    exact List.mem_append_right _ (List.mem_cons_self _ _)
  have hvlt : llOf st v < idxOf st v :=
    lt_of_le_of_ne (hL.inv.ll_le v hvstk) hnr
  refine ⟨hL.inv,
    fun x hx0 => ⟨hL.old_idx x hx0, hL.old_ll x hx0, hL.old_os x hx0⟩,
    hL.v_vis, hL.v_idx, ?_, Or.inr ⟨Pp, hstk, hvPp, ?_⟩⟩
  · intro x hx
    by_cases hx0 : visitedS st0 x
    · exact Or.inl hx0
    · exact Or.inr (hL.new_char x hx hx0)
  · intro p hp
    rcases List.mem_append.1 hp with h | h
    · have hpstk : p ∈ st.stack := by
        rw [hstk]
        exact List.mem_append_left _ h
      have hpne : p ≠ v := fun he => hvPp (he ▸ h)
      obtain ⟨hNB, hlt, hge⟩ := hL.seg_nb p hpstk (hPpnew p h) hpne
      exact ⟨hPpnew p h, hNB, hlt, hge⟩
    · have he : p = v := by simpa using h
      subst he
      refine ⟨hL.v_new, ?_, hvlt, le_refl _⟩
      intro z hz
      exact hL.nb_done z hz

/-- Walking any path from inside a successor-closed stack segment stays in
the segment or in the retired set. -/
theorem reach_mem_or_retired (A : String → List String) (st : TarjanState) (SEG : List String)
    (hclosure : ∀ p ∈ SEG, ∀ z ∈ A p, z ∈ SEG ∨ retired st z)
    (hfin : ∀ x, retired st x → ∀ w ∈ A x, retired st w) :
    ∀ x y, Relation.ReflTransGen (EdgeR A) x y → x ∈ SEG → y ∈ SEG ∨ retired st y := by
  intro x y h
  induction h with
  | refl => intro hx; exact Or.inl hx
  | tail hab hbc ih =>
    intro hx
    rcases ih hx with h1 | h1
    · exact hclosure _ h1 _ hbc
    · exact Or.inr (hfin _ h1 _ hbc)

/-- The retired set absorbs every path leaving it. -/
theorem retired_reach (A : String → List String) (st : TarjanState)
    (hfin : ∀ x, retired st x → ∀ w ∈ A x, retired st w) :
    ∀ a b, Relation.ReflTransGen (EdgeR A) a b → retired st a → retired st b := by
  intro a b h
  induction h with
  | refl => exact id
  | tail hab hbc ih => intro hr; exact hfin _ (ih hr) _ hbc

theorem popComponent_indexM (v : String) (st : TarjanState) :
    (popComponent v st).indexM = st.indexM := rfl

theorem popComponent_lowlinkM (v : String) (st : TarjanState) :
    (popComponent v st).lowlinkM = st.lowlinkM := rfl

theorem popComponent_counter (v : String) (st : TarjanState) :
    (popComponent v st).counter = st.counter := rfl

theorem popComponent_stack (v : String) (st : TarjanState) :
    (popComponent v st).stack = (popUntil v st.stack).2 := rfl

theorem popComponent_sccs_eq (v : String) (st : TarjanState) :
    (popComponent v st).sccs =
      if 1 < (popUntil v st.stack).1.length
      then st.sccs ++ [(popUntil v st.stack).1] else st.sccs := rfl

theorem popComponent_onStackM (v : String) (st : TarjanState) (x : String) :
    (popComponent v st).onStackM x =
      if x ∈ (popUntil v st.stack).1 then false else st.onStackM x :=
  clearStack_char _ _ x

/-- Exiting `strongConnect(v)` as a root: the popped segment is exactly the
strongly connected class of `v`, the stack is restored, and the component
is recorded exactly when it has more than one member. -/
theorem loopInv_root (A : String → List String) (st0 : TarjanState) (v : String)
    (st : TarjanState) (hInv0 : TarjanInv A st0) (hL : LoopInv A st0 v (A v) st)
    (hroot : llOf st v = idxOf st v) :
    TarjanPost A v st0 (popComponent v st) := by
  obtain ⟨Pp, hstk, hvPp, hPpnew⟩ := hL.stack_str
  have hstack_eq : st.stack = (Pp ++ [v]) ++ st0.stack := by
    rw [hstk]
    simp
  have hSEGnew : ∀ p ∈ Pp ++ [v], ¬ visitedS st0 p := by
    intro p hp
    rcases List.mem_append.1 hp with h | h
    · exact hPpnew p h
    · have he : p = v := by simpa using h
      exact he ▸ hL.v_new
  have hSEGstk : ∀ p ∈ Pp ++ [v], p ∈ st.stack := by
    intro p hp
    rw [hstack_eq]
    exact List.mem_append_left _ hp
  have hSEGvis : ∀ p ∈ Pp ++ [v], visitedS st p := fun p hp =>
    hL.inv.stack_vis p (hSEGstk p hp)
  have hNBfull : ∀ p ∈ Pp ++ [v], ∀ z ∈ A p,
      visitedS st z ∧ (z ∈ st.stack → llOf st p ≤ idxOf st z) := by
    intro p hp
    rcases List.mem_append.1 hp with h | h
    · have hpne : p ≠ v := fun he => hvPp (he ▸ h)
      exact (hL.seg_nb p (hSEGstk p hp) (hPpnew p h) hpne).1
    · have he : p = v := by simpa using h
      subst he
      exact fun z hz => hL.nb_done z hz
  have hllge : ∀ p ∈ Pp ++ [v], llOf st v ≤ llOf st p := by
    intro p hp
    rcases List.mem_append.1 hp with h | h
    · have hpne : p ≠ v := fun he => hvPp (he ▸ h)
      exact (hL.seg_nb p (hSEGstk p hp) (hPpnew p h) hpne).2.2
    · have he : p = v := by simpa using h
      subst he
      exact le_refl _
  have hrootval : llOf st v = st0.counter := by
    rw [hroot, hL.v_idx]
  have hidxSEG : ∀ p ∈ Pp ++ [v], st0.counter ≤ idxOf st p := fun p hp =>
    (hL.new_char p (hSEGvis p hp) (hSEGnew p hp)).1
  have hidxold : ∀ x ∈ st0.stack, idxOf st x < st0.counter := by
    intro x hx
    have hx0 : visitedS st0 x := hInv0.stack_vis x hx
    have he : idxOf st x = idxOf st0 x := by
      unfold idxOf
      rw [hL.old_idx x hx0]
    rw [he]
    exact hInv0.idx_lt x hx0
  have hvSEG : v ∈ Pp ++ [v] := List.mem_append_right _ (List.mem_cons_self _ _)
  have hclosure : ∀ p ∈ Pp ++ [v], ∀ z ∈ A p, z ∈ Pp ++ [v] ∨ retired st z := by
    intro p hp z hz
    obtain ⟨hvz, hbz⟩ := hNBfull p hp z hz
    by_cases hzstk : z ∈ st.stack
    · left
      have hmem := hzstk
      rw [hstack_eq] at hmem
      rcases List.mem_append.1 hmem with h | h
      · exact h
      · exfalso
        have h1 := hbz hzstk
        have h2 := hidxold z h
        have h3 := hllge p hp
        omega
    · exact Or.inr ⟨hvz, hzstk⟩
  have hsegv : ∀ p ∈ Pp ++ [v], ReachR A p v := by
    suffices H : ∀ n p, p ∈ Pp ++ [v] → idxOf st p < n → ReachR A p v by
      intro p hp
      exact H (idxOf st p + 1) p hp (Nat.lt_succ_self _)
    intro n
    induction n with
    | zero => intro p _ h; omega
    | succ n ih =>
      intro p hp hlt
      rcases List.mem_append.1 hp with h | h
      · have hpne : p ≠ v := fun he => hvPp (he ▸ h)
        obtain ⟨_, hplt, _⟩ := hL.seg_nb p (hSEGstk p hp) (hPpnew p h) hpne
        obtain ⟨z, hz, hzi, hzr⟩ := hL.inv.ll_wit p (hSEGstk p hp)
        have hzmem := hz
        rw [hstack_eq] at hzmem
        rcases List.mem_append.1 hzmem with h2 | h2
        · have h3 := hllge p hp
          have hzn : idxOf st z < n := by omega
          exact Relation.ReflTransGen.trans hzr (ih z h2 hzn)
        · exfalso
          have h4 := hidxold z h2
          have h3 := hllge p hp
          omega
      · have he : p = v := by simpa using h
        subst he
        exact Relation.ReflTransGen.refl
  have hvseg : ∀ p ∈ Pp ++ [v], ReachR A v p := by
    have hpw := hL.inv.reach_up
    rw [hstk] at hpw
    have h3 := (List.pairwise_append.1 hpw).2.2
    intro p hp
    rcases List.mem_append.1 hp with h | h
    · exact h3 p h v (List.mem_cons_self _ _)
    · have he : p = v := by simpa using h
      subst he
      exact Relation.ReflTransGen.refl
  have hclass : ∀ x, SCCeqR A v x ↔ x ∈ Pp ++ [v] := by
    intro x
    constructor
    · rintro ⟨hvx, hxv⟩
      rcases reach_mem_or_retired A st (Pp ++ [v]) hclosure hL.inv.fin_succ v x hvx hvSEG
        with h | h
      · exact h
      · exfalso
        have hvret := retired_reach A st hL.inv.fin_succ x v hxv h
        exact hvret.2 (hSEGstk v hvSEG)
    · intro h
      exact ⟨hvseg x h, hsegv x h⟩
  -- the popped state
  have hpop : popUntil v st.stack = (Pp ++ [v], st0.stack) := by
    rw [hstk]
    exact popUntil_eq v Pp st0.stack hvPp
  have hPstk : (popComponent v st).stack = st0.stack := by
    rw [popComponent_stack, hpop]
  have hPsccs : (popComponent v st).sccs =
      if 1 < (Pp ++ [v]).length then st.sccs ++ [Pp ++ [v]] else st.sccs := by
    rw [popComponent_sccs_eq, hpop]
  have hPos : ∀ x, (popComponent v st).onStackM x =
      if x ∈ Pp ++ [v] then false else st.onStackM x := by
    intro x
    rw [popComponent_onStackM, hpop]
  have hretP : ∀ x, retired (popComponent v st) x ↔ (visitedS st x ∧ x ∉ st0.stack) := by
    intro x
    unfold retired
    rw [hPstk]
    exact Iff.rfl
  have hretmono : ∀ x, retired st x → retired (popComponent v st) x := by
    intro x hx
    refine (hretP x).2 ⟨hx.1, fun hc => hx.2 ?_⟩
    rw [hstack_eq]
    exact List.mem_append_right _ hc
  have hSEGret : ∀ p ∈ Pp ++ [v], retired (popComponent v st) p := by
    intro p hp
    exact (hretP p).2 ⟨hSEGvis p hp, fun hc => hSEGnew p hp (hInv0.stack_vis p hc)⟩
  have hretof : ∀ x, visitedS st x → x ∉ Pp ++ [v] → x ∉ st0.stack → retired st x := by
    intro x hvx hxSEG hxold
    refine ⟨hvx, ?_⟩
    rw [hstack_eq]
    intro hc
    rcases List.mem_append.1 hc with h | h
    · exact hxSEG h
    · exact hxold h
  have hInvP : TarjanInv A (popComponent v st) := by
    have hnd := hL.inv.nodup
    rw [hstack_eq] at hnd
    constructor
    · rw [hPstk]
      exact hnd.of_append_right
    · intro x
      rw [hPstk, hPos x]
      by_cases hxSEG : x ∈ Pp ++ [v]
      · rw [if_pos hxSEG]
        constructor
        · intro hc
          cases hc
        · intro hc
          exact absurd (hInv0.stack_vis x hc) (hSEGnew x hxSEG)
      · rw [if_neg hxSEG]
        rw [hL.inv.onstack_iff x, hstack_eq]
        constructor
        · intro hc
          rcases List.mem_append.1 hc with h | h
          · exact absurd h hxSEG
          · exact h
        · exact fun h => List.mem_append_right _ h
    · intro x hx
      rw [hPstk] at hx
      exact hL.inv.stack_vis x (by rw [hstack_eq]; exact List.mem_append_right _ hx)
    · intro x hx
      exact hL.inv.idx_lt x hx
    · intro x hx
      rw [hPstk] at hx
      exact hL.inv.ll_le x (by rw [hstack_eq]; exact List.mem_append_right _ hx)
    · rw [hPstk]
      have hpw := hL.inv.reach_up
      rw [hstk] at hpw
      exact (List.pairwise_cons.1 (List.pairwise_append.1 hpw).2.1).2
    · intro x hx
      rw [hPstk] at hx
      have hxstk : x ∈ st.stack := by
        rw [hstack_eq]
        exact List.mem_append_right _ hx
      obtain ⟨z, hz, hzi, hzr⟩ := hL.inv.ll_wit x hxstk
      have hzmem := hz
      rw [hstack_eq] at hzmem
      rcases List.mem_append.1 hzmem with h | h
      · exfalso
        have h1 := hidxSEG z h
        have h2 := hidxold x hx
        have h3 := hL.inv.ll_le x hxstk
        omega
      · exact ⟨z, by rw [hPstk]; exact h, hzi, hzr⟩
    · intro x hx w hw
      obtain ⟨hvx, hxold⟩ := (hretP x).1 hx
      by_cases hxSEG : x ∈ Pp ++ [v]
      · rcases hclosure x hxSEG w hw with h | h
        · exact hSEGret w h
        · exact hretmono w h
      · exact hretmono w (hL.inv.fin_succ x (hretof x hvx hxSEG hxold) w hw)
    · intro S hS
      rw [hPsccs] at hS
      have hold : S ∈ st.sccs →
          S.Nodup ∧ 1 < S.length ∧ (∀ u ∈ S, retired (popComponent v st) u) ∧
          ∃ r ∈ S, ∀ w, w ∈ S ↔ SCCeqR A r w := by
        intro h
        have h' := hL.inv.sccs_ok S h
        exact ⟨h'.1, h'.2.1, fun u hu => hretmono u (h'.2.2.1 u hu), h'.2.2.2⟩
      by_cases hlen : 1 < (Pp ++ [v]).length
      · rw [if_pos hlen] at hS
        rcases List.mem_append.1 hS with h | h
        · exact hold h
        · have he : S = Pp ++ [v] := by simpa using h
          subst he
          refine ⟨hnd.of_append_left, hlen, hSEGret, v, hvSEG, ?_⟩
          intro w
          exact (hclass w).symm
      · rw [if_neg hlen] at hS
        exact hold hS
    · intro x hx
      obtain ⟨hvx, hxold⟩ := (hretP x).1 hx
      by_cases hxSEG : x ∈ Pp ++ [v]
      · by_cases hlen : 1 < (Pp ++ [v]).length
        · left
          refine ⟨Pp ++ [v], ?_, hxSEG⟩
          rw [hPsccs, if_pos hlen]
          exact List.mem_append_right _ (List.mem_cons_self _ _)
        · right
          have hPpnil : Pp = [] := by
            have h1 : (Pp ++ [v]).length = Pp.length + 1 := by simp
            have h2 : Pp.length = 0 := by omega
            exact List.length_eq_zero.1 h2
          have hxv : x = v := by
            rw [hPpnil] at hxSEG
            simpa using hxSEG
          subst hxv
          intro w hsc
          have hw := (hclass w).1 hsc
          rw [hPpnil] at hw
          simpa using hw
      · have hxret : retired st x := hretof x hvx hxSEG hxold
        rcases hL.inv.fin_scc x hxret with ⟨S, hS, hxS⟩ | h
        · left
          refine ⟨S, ?_, hxS⟩
          rw [hPsccs]
          by_cases hlen : 1 < (Pp ++ [v]).length
          · rw [if_pos hlen]
            exact List.mem_append_left _ hS
          · rw [if_neg hlen]
            exact hS
        · right
          exact h
  refine ⟨hInvP, ?_, hL.v_vis, hL.v_idx, ?_, Or.inl ⟨hPstk, hroot, ?_⟩⟩
  · intro x hx0
    refine ⟨hL.old_idx x hx0, hL.old_ll x hx0, ?_⟩
    rw [hPos x, if_neg (fun hc => hSEGnew x hc hx0)]
    exact hL.old_os x hx0
  · intro x hx
    by_cases hx0 : visitedS st0 x
    · exact Or.inl hx0
    · exact Or.inr (hL.new_char x hx hx0)
  · rw [hPstk]
    intro hc
    exact hL.v_new (hInv0.stack_vis v hc)

/-- The push step establishes the loop invariant with no neighbor done. -/
theorem loopInv_entry (A : String → List String) (v : String) (st : TarjanState)
    (hInv : TarjanInv A st) (hv : ¬ visitedS st v)
    (hreach : ∀ x ∈ st.stack, ReachR A x v) :
    LoopInv A st v [] (pushState v st) := by
  refine ⟨tarjanInv_push A v st hInv hv hreach, ?_, ?_, ?_, ?_, ?_, ?_, ?_, hv, ?_, ?_, ?_, ?_⟩
  · intro x hx0
    have hxv : x ≠ v := fun he => hv (he ▸ hx0)
    simp [pushState, mapSetN_ne _ _ _ _ hxv]
  · intro x hx0
    have hxv : x ≠ v := fun he => hv (he ▸ hx0)
    simp [pushState, mapSetN_ne _ _ _ _ hxv]
  · intro x hx0
    have hxv : x ≠ v := fun he => hv (he ▸ hx0)
    simp [pushState, mapSetB_ne _ _ _ _ hxv]
  · intro x hx0
    exact (visited_pushState v st x).2 (Or.inr hx0)
  · intro x hx hx0
    rcases (visited_pushState v st x).1 hx with he | h
    · subst he
      refine ⟨?_, Relation.ReflTransGen.refl⟩
      simp [idxOf, pushState, mapSetN_eq]
    · exact absurd h hx0
  · simp [pushState]
  · exact ⟨[], by simp [pushState], by simp, by simp⟩
  · exact (visited_pushState v st v).2 (Or.inl rfl)
  · simp [idxOf, pushState, mapSetN_eq]
  · intro w hw
    cases hw
  · intro p hp hp0 hpv
    exfalso
    simp only [pushState, List.mem_cons] at hp
    rcases hp with he | h
    · exact hpv he
    · exact hp0 (hInv.stack_vis p h)

/-- The full specification of `strongConnect`: on an unvisited node of `L`
reached by the whole stack, with enough fuel for the unvisited part of
`L`, the call satisfies the Tarjan post-condition. -/
theorem strongConnect_post (A : String → List String) (L : List String)
    (hA : ∀ x ∈ L, ∀ w ∈ A x, w ∈ L) :
    ∀ (fuel : Nat) (v : String) (st : TarjanState),
      TarjanInv A st → v ∈ L → ¬ visitedS st v →
      (∀ x ∈ st.stack, ReachR A x v) → ucOf L st ≤ fuel →
      TarjanPost A v st (strongConnect A fuel v st) := by
  intro fuel
  induction fuel with
  | zero =>
    intro v st hInv hvL hv hreach hfu
    exfalso
    have hvrem : v ∈ L.filter (fun x => (st.indexM x).isNone) := by
      refine List.mem_filter.2 ⟨hvL, ?_⟩
      cases hcc : st.indexM v with
      | none => simp
      | some i => exact absurd (by simp [visitedS, hcc]) hv
    have := List.length_pos_of_mem hvrem
    unfold ucOf at hfu
    omega
  | succ fuel ih =>
    intro v st hInv hvL hv hreach hfu
    rw [strongConnect]
    have hL1 : LoopInv A st v [] (pushState v st) := loopInv_entry A v st hInv hv hreach
    have hL2 := visitNeighbors_loopInv A L hA fuel (strongConnect A fuel) ih st v hvL hreach
      hfu (A v) [] (pushState v st) (by simp) hL1
    by_cases hroot :
        ((visitNeighbors (strongConnect A fuel) v (A v) (pushState v st)).lowlinkM v).getD 0
        = ((visitNeighbors (strongConnect A fuel) v (A v) (pushState v st)).indexM v).getD 0
    · rw [if_pos hroot]
      exact loopInv_root A st v _ hInv hL2 hroot
    · rw [if_neg hroot]
      exact loopInv_notroot A st v _ hL2 hroot

/-- One iteration of the top-level loop of `detectCycles`: run
`strongConnect` on a node without an index. -/
def tarjanStep (A : String → List String) (F : Nat) (st : TarjanState) (nd : Node) :
    TarjanState :=
  if (st.indexM nd.id).isNone then strongConnect A F nd.id st else st

theorem tarjanSccs_eq_fold (g : Graph) :
    tarjanSccs g =
      (g.nodes.foldl (tarjanStep (adjL g) (g.nodes.length + g.edges.length + 1))
        tarjanInit).sccs := rfl

/-- The initial state satisfies the invariant. -/
theorem tarjanInv_init (A : String → List String) : TarjanInv A tarjanInit := by
  have hnv : ∀ x, ¬ visitedS tarjanInit x := by
    intro x hx
    simp [visitedS, tarjanInit] at hx
  constructor
  · exact List.nodup_nil
  · intro x
    simp [tarjanInit]
  · intro x hx
    cases hx
  · intro x hx
    exact absurd hx (hnv x)
  · intro x hx
    cases hx
  · exact List.Pairwise.nil
  · intro x hx
    cases hx
  · intro x hx
    exact absurd hx.1 (hnv x)
  · intro S hS
    cases hS
  · intro x hx
    exact absurd hx.1 (hnv x)

/-- The top-level fold keeps the invariant and an empty stack, and visits
every processed node. -/
theorem tarjanFold_inv (A : String → List String) (L : List String)
    (hA : ∀ x ∈ L, ∀ w ∈ A x, w ∈ L) (F : Nat) (hF : L.length ≤ F) :
    ∀ (nds : List Node) (st : TarjanState), (∀ nd ∈ nds, nd.id ∈ L) →
      TarjanInv A st → st.stack = [] →
      TarjanInv A (nds.foldl (tarjanStep A F) st) ∧
      (nds.foldl (tarjanStep A F) st).stack = [] ∧
      (∀ nd ∈ nds, visitedS (nds.foldl (tarjanStep A F) st) nd.id) ∧
      (∀ x, visitedS st x → visitedS (nds.foldl (tarjanStep A F) st) x) := by
  intro nds
  induction nds with
  | nil =>
    intro st _ hInv hstk
    exact ⟨hInv, hstk, fun nd h => absurd h (List.not_mem_nil nd), fun x h => h⟩
  | cons nd nds ih =>
    intro st hL hInv hstk
    rw [List.foldl_cons]
    have hstep : TarjanInv A (tarjanStep A F st nd) ∧ (tarjanStep A F st nd).stack = [] ∧
        visitedS (tarjanStep A F st nd) nd.id ∧
        (∀ x, visitedS st x → visitedS (tarjanStep A F st nd) x) := by
      unfold tarjanStep
      by_cases hi : (st.indexM nd.id).isNone
      · rw [if_pos hi]
        have hnv : ¬ visitedS st nd.id := fun hc => (visited_iff_not_isNone st nd.id).1 hc hi
        have hreach : ∀ x ∈ st.stack, ReachR A x nd.id := by
          rw [hstk]
          intro x hx
          cases hx
        have hfu : ucOf L st ≤ F := le_trans (List.length_filter_le _ L) hF
        obtain ⟨hInv', hfr, hvis', hidx', hnew', hdich⟩ :=
          strongConnect_post A L hA F nd.id st hInv (hL nd (List.mem_cons_self _ _)) hnv
            hreach hfu
        refine ⟨hInv', ?_, hvis', visited_of_frozen st _ hfr⟩
        rcases hdich with ⟨ha, _, _⟩ | ⟨Pp, hq, hvPp, hseg⟩
        · rw [ha, hstk]
        · exfalso
          rw [hstk] at hq
          set s := strongConnect A F nd.id st
          have hvstk : nd.id ∈ s.stack := by
            rw [hq]
            exact List.mem_append_right _ (List.mem_cons_self _ _)
          obtain ⟨z, hz, hzi, hzr⟩ := hInv'.ll_wit nd.id hvstk
          have hzseg : z ∈ Pp ++ [nd.id] := by
            have hmem := hz
            rw [hq] at hmem
            rcases List.mem_append.1 hmem with h | h
            · exact List.mem_append_left _ h
            · rcases List.mem_cons.1 h with he | h2
              · exact he ▸ List.mem_append_right _ (List.mem_cons_self _ _)
              · cases h2
          obtain ⟨hznew, _, _, _⟩ := hseg z hzseg
          have hzvis : visitedS s z := hInv'.stack_vis z hz
          rcases hnew' z hzvis with h | ⟨hge, _⟩
          · exact hznew h
          · obtain ⟨_, _, hlt, _⟩ := hseg nd.id (List.mem_append_right _ (List.mem_cons_self _ _))
            omega
      · rw [if_neg hi]
        exact ⟨hInv, hstk, (visited_iff_not_isNone st nd.id).2 hi, fun x h => h⟩
    obtain ⟨hI1, hI2, hI3, hI4⟩ := hstep
    obtain ⟨hJ1, hJ2, hJ3, hJ4⟩ := ih (tarjanStep A F st nd)
      (fun nd' h => hL nd' (List.mem_cons_of_mem _ h)) hI1 hI2
    refine ⟨hJ1, hJ2, ?_, fun x h => hJ4 x (hI4 x h)⟩
    intro nd' h
    rcases List.mem_cons.1 h with he | h2
    · exact he ▸ hJ4 nd.id hI3
    · exact hJ3 nd' h2

theorem mem_enumFrom_of_mem {α : Type} :
    ∀ (l : List α) (n : Nat) (x : α), x ∈ l → ∃ p ∈ List.enumFrom n l, p.2 = x := by
  intro l
  induction l with
  | nil => intro n x h; cases h
  | cons y ys ih =>
    intro n x h
    rcases List.mem_cons.1 h with he | h2
    · exact ⟨(n, y), List.mem_cons_self _ _, he.symm⟩
    · obtain ⟨p, hp, hpx⟩ := ih (n + 1) x h2
      exact ⟨p, List.mem_cons_of_mem _ hp, hpx⟩

/-- C4: on any graph whose edge targets are node ids, `detectCycles`
reports exactly the strongly connected components with 2 or more members
— every reported cycle is a duplicate-free list that is precisely the
strongly connected equivalence class of one of its members and has at
least 2 members, and every node strongly connected to some other node
appears in a reported cycle — and labels severity purely by size:
size ≥ 4 is `high`, size 3 is `medium`, size 2 is `low`. -/
theorem detectCycles_scc_spec (g : Graph)
    (ht : ∀ e ∈ g.edges, e.target ∈ nodeIds g) :
    (∀ c ∈ detectCycles g,
        c.nodes.Nodup ∧ c.size = c.nodes.length ∧ 2 ≤ c.size ∧
        (4 ≤ c.size → c.severity = "high") ∧
        (c.size = 3 → c.severity = "medium") ∧
        (c.size = 2 → c.severity = "low") ∧
        ∃ r ∈ c.nodes, ∀ w, w ∈ c.nodes ↔ SCCeqR (adjL g) r w) ∧
    (∀ u ∈ nodeIds g, (∃ w, w ≠ u ∧ SCCeqR (adjL g) u w) →
        ∃ c ∈ detectCycles g, u ∈ c.nodes) := by
  have hA : ∀ x ∈ nodeIds g, ∀ w ∈ adjL g x, w ∈ nodeIds g := by
    intro x hx w hw
    unfold adjL at hw
    rw [buildAdjacency_char g x, if_pos hx] at hw
    simp only [Option.getD_some] at hw
    obtain ⟨e, he, rfl⟩ := List.mem_map.1 hw
    exact ht e (List.mem_filter.1 he).1
  have hF : (nodeIds g).length ≤ g.nodes.length + g.edges.length + 1 := by
    rw [nodeIds, List.length_map]
    omega
  obtain ⟨hInvF, hstkF, hvisF, _⟩ := tarjanFold_inv (adjL g) (nodeIds g) hA
    (g.nodes.length + g.edges.length + 1) hF g.nodes tarjanInit
    (fun nd h => List.mem_map_of_mem _ h) (tarjanInv_init _) rfl
  have hsccs : ∀ S ∈ tarjanSccs g, S.Nodup ∧ 1 < S.length ∧
      ∃ r ∈ S, ∀ w, w ∈ S ↔ SCCeqR (adjL g) r w := by
    intro S hS
    rw [tarjanSccs_eq_fold] at hS
    have h := hInvF.sccs_ok S hS
    exact ⟨h.1, h.2.1, h.2.2.2⟩
  constructor
  · intro c hc
    rw [detectCycles] at hc
    obtain ⟨p, hp, rfl⟩ := List.mem_map.1 hc
    have hmem : p.2 ∈ tarjanSccs g := snd_mem_of_mem_enumFrom _ 0 p hp
    obtain ⟨hnd, hlen, hcls⟩ := hsccs p.2 hmem
    refine ⟨hnd, rfl, hlen, ?_, ?_, ?_, hcls⟩
    · intro h4
      have h4' : 4 ≤ p.2.length := h4
      show (if 3 < p.2.length then "high"
        else if 2 < p.2.length then "medium" else "low") = "high"
      rw [if_pos (by omega : 3 < p.2.length)]
    · intro h3
      have h3' : p.2.length = 3 := h3
      show (if 3 < p.2.length then "high"
        else if 2 < p.2.length then "medium" else "low") = "medium"
      rw [if_neg (by omega : ¬ 3 < p.2.length), if_pos (by omega : 2 < p.2.length)]
    · intro h2
      have h2' : p.2.length = 2 := h2
      show (if 3 < p.2.length then "high"
        else if 2 < p.2.length then "medium" else "low") = "low"
      rw [if_neg (by omega : ¬ 3 < p.2.length), if_neg (by omega : ¬ 2 < p.2.length)]
  · intro u hu hex
    obtain ⟨w, hwne, hsc⟩ := hex
    obtain ⟨nd, hnd, rfl⟩ := List.mem_map.1 hu
    have hvis : visitedS (g.nodes.foldl
        (tarjanStep (adjL g) (g.nodes.length + g.edges.length + 1)) tarjanInit) nd.id :=
      hvisF nd hnd
    have hret : retired (g.nodes.foldl
        (tarjanStep (adjL g) (g.nodes.length + g.edges.length + 1)) tarjanInit) nd.id := by
      refine ⟨hvis, ?_⟩
      rw [hstkF]
      exact List.not_mem_nil _
    rcases hInvF.fin_scc nd.id hret with ⟨S, hS, hmemS⟩ | hsing
    · have hS' : S ∈ tarjanSccs g := by
        rw [tarjanSccs_eq_fold]
        exact hS
      obtain ⟨p, hp, hpx⟩ := mem_enumFrom_of_mem (tarjanSccs g) 0 S hS'
      have hcyc := List.mem_map_of_mem
        (fun q : Nat × List String => Cycle.mk ("cycle-" ++ toString (q.1 + 1)) q.2
          (q.2.map (cycleLabel g.nodes)) q.2.length
          (if 3 < q.2.length then "high"
            else if 2 < q.2.length then "medium" else "low")) hp
      refine ⟨Cycle.mk ("cycle-" ++ toString (p.1 + 1)) p.2
        (p.2.map (cycleLabel g.nodes)) p.2.length
        (if 3 < p.2.length then "high"
          else if 2 < p.2.length then "medium" else "low"), ?_, ?_⟩
      · rw [detectCycles]
        exact hcyc
      · show nd.id ∈ p.2
        rw [hpx]
        exact hmemS
    · exact absurd (hsing w hsc) hwne

/-- Witness for `detectCycles_scc_spec`: on the two-node cycle graph the
edge targets are node ids, the mutually reachable node `a` appears in a
reported cycle. -/
theorem detectCycles_scc_spec_witness :
    (∀ e ∈ twoCycleGraph.edges, e.target ∈ nodeIds twoCycleGraph) ∧
    "a" ∈ nodeIds twoCycleGraph ∧
    ∃ c ∈ detectCycles twoCycleGraph, "a" ∈ c.nodes :=
  ⟨by decide, by decide,
    (detectCycles_scc_spec twoCycleGraph (by decide)).2 "a" (by decide)
      ⟨"b", by decide,
        Relation.ReflTransGen.single (by decide : "b" ∈ adjL twoCycleGraph "a"),
        Relation.ReflTransGen.single (by decide : "a" ∈ adjL twoCycleGraph "b")⟩⟩

end CodeDNA
